import Mathlib

/-!
Verification development for the SDU-IPTV playlist processor
(`scripts/process_m3u.py` and `scripts/process-mul.py`).

Python strings are modelled as lists of characters (`Str := List Char`);
the string methods and the concrete regular expressions used by the two
scripts are modelled by explicit recursive functions on `List Char`.
Mutable `dict` channel records become an immutable `Channel` structure;
in-place mutation of a record inside the channel list becomes `List.set`.
-/

abbrev Str := List Char

/-- Model of Python `str.strip()`: drop leading and trailing whitespace
(the scripts only ever meet ASCII whitespace, covered by
`Char.isWhitespace`). -/
def trim (s : Str) : Str :=
  ((s.dropWhile Char.isWhitespace).reverse.dropWhile Char.isWhitespace).reverse

/-- Model of Python `content.split('\n')`: split at every newline,
keeping empty segments. -/
def splitNl : Str → List Str
  | [] => [[]]
  | c :: cs =>
    if c = '\n' then [] :: splitNl cs
    else (c :: (splitNl cs).headD []) :: (splitNl cs).tail

/-- Model of the Python substring test `pat in s`. -/
def occurs (pat : Str) : Str → Bool
  | [] => pat.isEmpty
  | c :: cs => pat.isPrefixOf (c :: cs) || occurs pat cs

/-- Model of `re.sub(lit + '[^"]*"', rep, s)` for a literal prefix
`lit = p :: ps` (in the scripts, `group-title="`) and a constant
replacement string `rep`: every non-overlapping leftmost match — the
literal, then the shortest run of non-quote characters, then a closing
quote — is replaced by `rep`, scanning left to right.  The replacement
text the scripts build is `group-title="{new}"`; Python's backslash
escape processing in replacement templates is not modelled, so the model
is faithful whenever the new group string contains no backslash (all
group names used by the scripts are backslash-free). -/
def subAllF (p : Char) (ps rep : Str) : Nat → Str → Str
  | _, [] => []
  | 0, s => s
  | fuel + 1, c :: cs =>
    if (p :: ps).isPrefixOf (c :: cs) ∧ '"' ∈ cs.drop ps.length then
      rep ++ subAllF p ps rep fuel (((cs.drop ps.length).dropWhile (fun x => x ≠ '"')).drop 1)
    else
      c :: subAllF p ps rep fuel cs

/-- The `re.sub` model, with the fuel instantiated to the string length
(each step consumes at least one character, so this fuel is adequate —
see `subAllF_irrel` and the unfolding equations below). -/
def subAll (p : Char) (ps rep : Str) (s : Str) : Str :=
  subAllF p ps rep s.length s

/-- Model of Python `s.replace(pat, rep)` for a nonempty literal pattern
`pat = p :: ps`: every non-overlapping occurrence is replaced, scanning
left to right (fuel-driven recursion, fuel instantiated in
`replaceAll`). -/
def replaceAllF (p : Char) (ps rep : Str) : Nat → Str → Str
  | _, [] => []
  | 0, s => s
  | fuel + 1, c :: cs =>
    if (p :: ps).isPrefixOf (c :: cs) then
      rep ++ replaceAllF p ps rep fuel (cs.drop ps.length)
    else
      c :: replaceAllF p ps rep fuel cs

/-- The `str.replace` model at adequate fuel. -/
def replaceAll (p : Char) (ps rep : Str) (s : Str) : Str :=
  replaceAllF p ps rep s.length s

/-- Length bound for the text remaining after one `re.sub` match. -/
lemma afterMatch_len_le (ps cs : Str) :
    (((cs.drop ps.length).dropWhile (fun x => x ≠ '"')).drop 1).length ≤ cs.length := by
  have h1 : (((cs.drop ps.length).dropWhile (fun x => x ≠ '"')).drop 1).length ≤
      ((cs.drop ps.length).dropWhile (fun x => x ≠ '"')).length := by
    simp [List.length_drop]
  have h2 : ((cs.drop ps.length).dropWhile (fun x => x ≠ '"')).length ≤
      (cs.drop ps.length).length :=
    (List.dropWhile_sublist _).length_le
  have h3 : (cs.drop ps.length).length ≤ cs.length := by simp [List.length_drop]
  omega

lemma subAllF_irrel (p : Char) (ps rep : Str) :
    ∀ (n : Nat) (s : Str) (f1 f2 : Nat), s.length ≤ n → s.length ≤ f1 → s.length ≤ f2 →
      subAllF p ps rep f1 s = subAllF p ps rep f2 s := by
  intro n
  induction n with
  | zero =>
    intro s f1 f2 hn _ _
    have hs : s = [] := List.length_eq_zero.mp (Nat.le_zero.mp hn)
    subst hs
    cases f1 <;> cases f2 <;> rfl
  | succ n ih =>
    intro s f1 f2 hn h1 h2
    cases s with
    | nil => cases f1 <;> cases f2 <;> rfl
    | cons c cs =>
      cases f1 with
      | zero => exact absurd h1 (by simp)
      | succ f1 =>
        cases f2 with
        | zero => exact absurd h2 (by simp)
        | succ f2 =>
          simp only [List.length_cons] at hn h1 h2
          simp only [subAllF]
          split
          · rw [ih _ f1 f2 (le_trans (afterMatch_len_le ps cs) (by omega))
              (le_trans (afterMatch_len_le ps cs) (by omega))
              (le_trans (afterMatch_len_le ps cs) (by omega))]
          · rw [ih cs f1 f2 (by omega) (by omega) (by omega)]

lemma subAll_cons_match (p : Char) (ps rep : Str) (c : Char) (cs : Str)
    (h : (p :: ps).isPrefixOf (c :: cs) ∧ '"' ∈ cs.drop ps.length) :
    subAll p ps rep (c :: cs) =
      rep ++ subAll p ps rep (((cs.drop ps.length).dropWhile (fun x => x ≠ '"')).drop 1) := by
  unfold subAll
  simp only [List.length_cons, subAllF, if_pos h]
  congr 1
  exact subAllF_irrel p ps rep cs.length _ cs.length _ (afterMatch_len_le ps cs)
    (afterMatch_len_le ps cs) le_rfl

lemma subAll_cons_skip (p : Char) (ps rep : Str) (c : Char) (cs : Str)
    (h : ¬((p :: ps).isPrefixOf (c :: cs) ∧ '"' ∈ cs.drop ps.length)) :
    subAll p ps rep (c :: cs) = c :: subAll p ps rep cs := by
  unfold subAll
  simp only [List.length_cons, subAllF, if_neg h]

lemma replaceAllF_irrel (p : Char) (ps rep : Str) :
    ∀ (n : Nat) (s : Str) (f1 f2 : Nat), s.length ≤ n → s.length ≤ f1 → s.length ≤ f2 →
      replaceAllF p ps rep f1 s = replaceAllF p ps rep f2 s := by
  intro n
  induction n with
  | zero =>
    intro s f1 f2 hn _ _
    have hs : s = [] := List.length_eq_zero.mp (Nat.le_zero.mp hn)
    subst hs
    cases f1 <;> cases f2 <;> rfl
  | succ n ih =>
    intro s f1 f2 hn h1 h2
    cases s with
    | nil => cases f1 <;> cases f2 <;> rfl
    | cons c cs =>
      cases f1 with
      | zero => exact absurd h1 (by simp)
      | succ f1 =>
        cases f2 with
        | zero => exact absurd h2 (by simp)
        | succ f2 =>
          simp only [List.length_cons] at hn h1 h2
          simp only [replaceAllF]
          have hd : (cs.drop ps.length).length ≤ cs.length := by simp [List.length_drop]
          split
          · rw [ih _ f1 f2 (by omega) (by omega) (by omega)]
          · rw [ih cs f1 f2 (by omega) (by omega) (by omega)]

lemma replaceAll_cons_match (p : Char) (ps rep : Str) (c : Char) (cs : Str)
    (h : (p :: ps).isPrefixOf (c :: cs)) :
    replaceAll p ps rep (c :: cs) = rep ++ replaceAll p ps rep (cs.drop ps.length) := by
  unfold replaceAll
  simp only [List.length_cons, replaceAllF, if_pos h]
  congr 1
  have hd : (cs.drop ps.length).length ≤ cs.length := by simp [List.length_drop]
  exact replaceAllF_irrel p ps rep cs.length _ cs.length _ hd hd le_rfl

lemma replaceAll_cons_skip (p : Char) (ps rep : Str) (c : Char) (cs : Str)
    (h : ¬(p :: ps).isPrefixOf (c :: cs)) :
    replaceAll p ps rep (c :: cs) = c :: replaceAll p ps rep cs := by
  unfold replaceAll
  simp only [List.length_cons, replaceAllF, if_neg h]

/-- Model of `re.search(lit + '([^"]*)"', line)` for a literal prefix
`lit = p :: ps`, returning the first capture group of the leftmost
match: at the leftmost position where `lit` occurs and some closing
quote follows, the run of non-quote characters after `lit`. -/
def findValue (p : Char) (ps : Str) : Str → Option Str
  | [] => none
  | c :: cs =>
    if (p :: ps).isPrefixOf (c :: cs) ∧ '"' ∈ cs.drop ps.length then
      some ((cs.drop ps.length).takeWhile (fun x => x ≠ '"'))
    else findValue p ps cs

/-- String literals used by the scripts. -/
def extinfMark : Str := "#EXTINF:".data

def extm3uMark : Str := "#EXTM3U".data

def tvgNameAttr : Str := "tvg-name".data

def groupTitleAttr : Str := "group-title".data

/-- The substring `'group-title='` tested by `update_group_title`. -/
def gt12 : Str := "group-title=".data

/-- Tail of the literal part `group-title="` of the `re.sub` pattern. -/
def gtqTail : Str := "roup-title=\"".data

/-- The literal part `group-title="` of the `re.sub` pattern. -/
def gtq : Str := 'g' :: gtqTail

/-- Tail of the duration token `#EXTINF:-1 ` (with trailing space). -/
def tokTail : Str := "EXTINF:-1 ".data

/-- The duration token `#EXTINF:-1 ` (with trailing space). -/
def extinfTok : Str := '#' :: tokTail

/-- One channel record, mirroring the dict built by
`M3UProcessor.parse_m3u`. -/
structure Channel where
  extinf : Str
  url : Option Str
  name : Str
  tvg_name : Str
  group_title : Str
  original_index : Nat
deriving DecidableEq

/-- Placeholder record used to model Python list indexing (all indexing
in the scripts happens at indices known to be in bounds). -/
def dChan : Channel :=
  { extinf := [], url := none, name := [], tvg_name := [], group_title := [],
    original_index := 0 }

/-- Model of `M3UProcessor.extract_channel_name`
(`re.search(r',([^,]+)$', line)`): the nonempty text after the last
comma, stripped; empty string when there is no comma or nothing follows
the last comma. -/
def extract_channel_name (line : Str) : Str :=
  let pre := line.reverse.takeWhile (fun x => x ≠ ',')
  if pre.length < line.length ∧ pre ≠ [] then trim pre.reverse else []

/-- Model of `M3UProcessor.extract_tvg_attribute`
(`re.search(attr + '="([^"]*)"', line)`), returning the first capture
group or the empty string. -/
def extract_tvg_attribute (line attr : Str) : Str :=
  match attr with
  | [] => []
  | a :: rest =>
    match findValue a (rest ++ ['=', '"']) line with
    | none => []
    | some v => v

/-- Model of `M3UProcessor.update_group_title`: if the line contains
`group-title=`, rewrite every quoted `group-title="..."` attribute via
`re.sub`; otherwise insert a fresh attribute by replacing the duration
token `#EXTINF:-1 ` with `#EXTINF:-1 group-title="{new}" `.  The
`group_title` field is overwritten unconditionally. -/
def upd_extinf (t old : Str) : Str :=
  if occurs gt12 old then
    subAll 'g' gtqTail (gtq ++ t ++ ['"']) old
  else
    replaceAll '#' tokTail (extinfTok ++ gtq ++ t ++ ('"' :: [' '])) old

/-- Model of `M3UProcessor.update_group_title` proper: rewrite the
metadata line and overwrite the `group_title` field unconditionally. -/
def update_group_title (ch : Channel) (t : Str) : Channel :=
  { ch with extinf := upd_extinf t ch.extinf, group_title := t }

/-- Inclusion test of one channel against the name patterns, matching
`find_channel_index`'s body: equality when `exact`, Python `in`
(substring) otherwise. -/
def chanMatch (pats : List Str) (exact : Bool) (c : Channel) : Bool :=
  if exact then pats.any (fun q => q == c.name)
  else pats.any (fun q => occurs q c.name)

/-- Index-tracking scan used to model the `enumerate` loop of
`find_channel_index`. -/
def findIdxFrom (q : Channel → Bool) : List Channel → Nat → Option Nat
  | [], _ => none
  | c :: cs, i => if q c then some i else findIdxFrom q cs (i + 1)

/-- Model of `M3UProcessor.find_channel_index`; Python's `-1` sentinel
becomes `none`. -/
def find_channel_index (chans : List Channel) (pats : List Str) (exact : Bool) :
    Option Nat :=
  findIdxFrom (chanMatch pats exact) chans 0

/-- Model of `M3UProcessor.find_all_channel_indices`: all matching
indices in ascending order. -/
def find_all_channel_indices (chans : List Channel) (pats : List Str) (exact : Bool) :
    List Nat :=
  (chans.enum.filter (fun pc => chanMatch pats exact pc.2)).map (fun pc => pc.1)

/-- Model of Python `list.insert(pos, a)` (clamps `pos` to the list
length, appending when `pos` is past the end). -/
def pyInsert (l : List Channel) (pos : Nat) (a : Channel) : List Channel :=
  l.take pos ++ a :: l.drop pos

/-- The insertion loop at the end of `move_channels_after_target`:
insert the collected records one by one at successive positions. -/
def insLoop : List Channel → Nat → List Channel → List Channel
  | cur, _, [] => cur
  | cur, pos, c :: cs => insLoop (pyInsert cur pos c) (pos + 1) cs

/-- Model of `M3UProcessor.move_channels_after_target` (identical in
both scripts): look up the anchor index, collect matching source
indices, pop them highest-first (keeping their mutual order), then
insert them starting at `target_idx + 1` — note the anchor index is the
one computed *before* the removals.  Returns the Python function's
boolean result alongside the updated list. -/
def move_channels_after_target (chans : List Channel) (source_patterns : List Str)
    (target_pattern : Str) (exact : Bool) : Bool × List Channel :=
  match find_channel_index chans [target_pattern] exact with
  | none => (false, chans)
  | some tidx =>
    let sidx := find_all_channel_indices chans source_patterns exact
    if sidx.isEmpty then (false, chans)
    else
      let st := sidx.reverse.foldl
        (fun (st : List Channel × List Channel) idx =>
          (st.1.eraseIdx idx, st.1.getD idx dChan :: st.2)) (chans, [])
      (true, insLoop st.1 (tidx + 1) st.2)

/-- Step 1 of `process_channels`: for every index matching the patterns,
relabel that record's group in place. -/
def relabel_by_patterns (chans : List Channel) (pats : List Str) (grp : Str) :
    List Channel :=
  (find_all_channel_indices chans pats false).foldl
    (fun cur idx => cur.set idx (update_group_title (cur.getD idx dChan) grp)) chans

/-- Step 2 of `process_channels` (lines 203–217 of `process_m3u.py`),
with the hard-coded name literals as parameters: find the source by
exact name and the anchor by substring; if both exist, shallow-copy the
source record, relabel the copy's group, and insert the copy right
after the anchor's index.  No-op when either lookup fails. -/
def duplicate_after_anchor (chans : List Channel) (src_pats anchor_pats : List Str)
    (grp : Str) : List Channel :=
  match find_channel_index chans src_pats true,
        find_channel_index chans anchor_pats false with
  | some sidx, some aidx =>
    let copied := update_group_title (chans.getD sidx dChan) grp
    pyInsert chans (aidx + 1) copied
  | _, _ => chans

/-- Step 4 of `process_m3u.py`'s `process_channels`: relabel the exactly
named record in place, then pop it and append it at the end. -/
def move_to_end_v1 (chans : List Channel) (name_pats : List Str) (grp : Str) :
    List Channel :=
  match find_channel_index chans name_pats true with
  | none => chans
  | some idx =>
    let chans1 := chans.set idx (update_group_title (chans.getD idx dChan) grp)
    chans1.eraseIdx idx ++ [chans1.getD idx dChan]

/-- Step 4 of `process-mul.py`'s `process_channels`: pop the exactly
named record, relabel it, then append it at the end. -/
def move_to_end_v2 (chans : List Channel) (name_pats : List Str) (grp : Str) :
    List Channel :=
  match find_channel_index chans name_pats true with
  | none => chans
  | some idx =>
    chans.eraseIdx idx ++ [update_group_title (chans.getD idx dChan) grp]

/-- Group and pattern literals of `process_channels`. -/
def cgtnPats : List Str := ["CGTN".data]

def grpOther : Str := "其他频道".data

def shandongPats : List Str := ["山东卫视".data]

def cctv1Pats : List Str := ["CCTV1".data, "CCTV-1".data]

def grpCCTV : Str := "央视频道".data

def cctv4Pats : List Str := ["CCTV4欧洲".data, "CCTV4美洲".data]

def shaoerPat : Str := "山东少儿".data

def radioPats : List Str := ["山东经济广播".data]

def grpRadio : Str := "广播频道".data

/-- Model of `M3UProcessor.process_channels` of `process_m3u.py`: the
four rule steps in sequence. -/
def process_channels (chans : List Channel) : List Channel :=
  let c1 := relabel_by_patterns chans cgtnPats grpOther
  let c2 := duplicate_after_anchor c1 shandongPats cctv1Pats grpCCTV
  let c3 := (move_channels_after_target c2 cctv4Pats shaoerPat false).2
  move_to_end_v1 c3 radioPats grpRadio

/-- Build the pending record opened by an `#EXTINF:` line, mirroring the
dict literal in `parse_m3u`. -/
def mkChannel (l : Str) (n : Nat) : Channel :=
  { extinf := l, url := none, name := extract_channel_name l,
    tvg_name := extract_tvg_attribute l tvgNameAttr,
    group_title := extract_tvg_attribute l groupTitleAttr,
    original_index := n }

/-- Python truthiness of `current_channel.get('url')` (`None` and the
empty string are falsy). -/
def urlTruthy : Option Str → Bool
  | some u => !u.isEmpty
  | none => false

/-- One iteration of the `parse_m3u` line loop; the state is the emitted
channels plus the pending record (`{}` becomes `none`). -/
def parseStep (st : List Channel × Option Channel) (line : Str) :
    List Channel × Option Channel :=
  if (trim line).isEmpty then st
  else if extm3uMark.isPrefixOf (trim line) then st
  else if extinfMark.isPrefixOf (trim line) then
    match st.2 with
    | some c =>
      if urlTruthy c.url then
        (st.1 ++ [c], some (mkChannel (trim line) (st.1 ++ [c]).length))
      else (st.1, some (mkChannel (trim line) st.1.length))
    | none => (st.1, some (mkChannel (trim line) st.1.length))
  else if !(['#'].isPrefixOf (trim line)) && st.2.isSome then
    match st.2 with
    | some c => (st.1 ++ [{ c with url := some (trim line) }], none)
    | none => st
  else st

/-- The final `if current_channel and current_channel.get('url')` check
after the loop of `parse_m3u`. -/
def resolvePending (st : List Channel × Option Channel) : List Channel :=
  match st.2 with
  | some c => if urlTruthy c.url then st.1 ++ [c] else st.1
  | none => st.1

/-- `parse_m3u` on an explicit list of lines. -/
def parseLines (ls : List Str) : List Channel :=
  resolvePending (ls.foldl parseStep ([], none))

/-- Model of `M3UProcessor.parse_m3u` on the raw text. -/
def parse_m3u (content : Str) : List Channel :=
  parseLines (splitNl content)

/-- The channel part of `generate_m3u_content`: for every record, its
metadata line and its locator line, each newline-terminated. -/
def renderBody (chans : List Channel) : Str :=
  (chans.map (fun c => c.extinf ++ '\n' :: ((c.url.getD []) ++ ['\n']))).flatten

/-- Model of `M3UProcessor.generate_m3u_content` with the header block
(which embeds the generation timestamp) passed in as a parameter. -/
def generate_m3u_content (header : Str) (chans : List Channel) : Str :=
  header ++ renderBody chans

/-- A line the parser ignores regardless of state: blank after
stripping, or a comment line that is not a metadata line. -/
def commentish (l : Str) : Bool :=
  (trim l).isEmpty || ((['#'].isPrefixOf (trim l)) && !(extinfMark.isPrefixOf (trim l)))

/-- Well-formedness of a header block: it ends with a newline (so the
channel body starts on a fresh line) and each of its lines is ignored by
the parser.  The header the script generates satisfies this for every
timestamp. -/
def headerOk (header : Str) : Bool :=
  ((splitNl header).getLast? == some []) && (splitNl header).all commentish

/-- The header of `generate_m3u_content` of `process_m3u.py`, with the
run-dependent timestamp fixed to a sample value. -/
def headerText : Str :=
  ("#EXTM3U\n# Generated by GitHub Actions\n# Source: https://raw.githubusercontent.com/plsy1/iptv/refs/heads/main/unicast.m3u\n# Processed at: 2024-01-01 00:00:00\n# 处理规则:\n# 1. CGTN频道改为\"其他频道\"\n# 2. 复制山东卫视到CCTV1下面并改为\"央视频道\"\n# 3. CCTV4欧洲/美洲移动到山东少儿之后\n# 4. 山东经济广播移到末尾并改为\"广播频道\"\n\n").data

/-! Basic lemmas about the list-level helpers. -/

lemma head_prefix_of_prefix (a : Char) (as t : Str) (h : (a :: as).isPrefixOf t = true) :
    ([a]).isPrefixOf t = true := by
  cases t with
  | nil => simp [List.isPrefixOf] at h
  | cons b bs =>
    simp only [List.isPrefixOf, Bool.and_eq_true] at h ⊢
    exact ⟨h.1, trivial⟩

lemma getD_set_self : ∀ (l : List Channel) (i : Nat) (x : Channel), i < l.length →
    (l.set i x).getD i dChan = x
  | [], i, x, h => absurd h (by simp)
  | a :: l, 0, x, _ => rfl
  | a :: l, i + 1, x, h => getD_set_self l i x (by simpa using h)

lemma eraseIdx_set_self : ∀ (l : List Channel) (i : Nat) (x : Channel),
    (l.set i x).eraseIdx i = l.eraseIdx i
  | [], _, _ => rfl
  | a :: l, 0, x => rfl
  | a :: l, i + 1, x => by
    simp only [List.set, List.eraseIdx]
    rw [eraseIdx_set_self l i x]

lemma findIdxFrom_bound (q : Channel → Bool) :
    ∀ (l : List Channel) (k i : Nat), findIdxFrom q l k = some i → i < k + l.length
  | [], k, i, h => by simp [findIdxFrom] at h
  | c :: cs, k, i, h => by
    by_cases hq : q c
    · simp [findIdxFrom, hq] at h
      simp [List.length_cons]
      omega
    · have hrec := findIdxFrom_bound q cs (k + 1) i
        (by simpa [findIdxFrom, hq] using h)
      simp [List.length_cons]
      omega

lemma find_channel_index_bound (chans : List Channel) (pats : List Str) (exact : Bool)
    (i : Nat) (h : find_channel_index chans pats exact = some i) : i < chans.length := by
  have := findIdxFrom_bound (chanMatch pats exact) chans 0 i h
  omega

/-! Lemmas about `parseStep` on ignorable lines. -/

lemma parseStep_no_meta (st : List Channel × Option Channel) (p : Str)
    (hp : extinfMark.isPrefixOf (trim p) = false) (hpend : st.2 = none) :
    parseStep st p = st := by
  unfold parseStep
  split_ifs with h1 h2 h3 h4
  · rfl
  · rfl
  · exact absurd h3 (by simp [hp])
  · exact absurd h4 (by simp [hpend])
  · rfl

lemma parseStep_locator_no_pending (st : List Channel × Option Channel) (l : Str)
    (hl : (['#'].isPrefixOf (trim l)) = false) (hpend : st.2 = none) :
    parseStep st l = st := by
  have hm3u : extm3uMark.isPrefixOf (trim l) = false := by
    cases h : extm3uMark.isPrefixOf (trim l) with
    | false => rfl
    | true =>
      have : (['#']).isPrefixOf (trim l) = true :=
        head_prefix_of_prefix '#' ("EXTM3U".data) (trim l) (by simpa [extm3uMark] using h)
      simp [this] at hl
  have hinf : extinfMark.isPrefixOf (trim l) = false := by
    cases h : extinfMark.isPrefixOf (trim l) with
    | false => rfl
    | true =>
      have : (['#']).isPrefixOf (trim l) = true :=
        head_prefix_of_prefix '#' ("EXTINF:".data) (trim l) (by simpa [extinfMark] using h)
      simp [this] at hl
  unfold parseStep
  split_ifs with h1 h2 h3 h4
  · rfl
  · rfl
  · exact absurd h3 (by simp [hinf])
  · exact absurd h4 (by simp [hpend])
  · rfl

lemma foldl_no_meta : ∀ (ls : List Str),
    (∀ p ∈ ls, extinfMark.isPrefixOf (trim p) = false) →
    ls.foldl parseStep ([], none) = ([], none)
  | [], _ => rfl
  | p :: ps, h => by
    simp only [List.foldl_cons]
    rw [parseStep_no_meta ([], none) p (h p (List.mem_cons_self _ _)) rfl]
    exact foldl_no_meta ps (fun q hq => h q (List.mem_cons_of_mem _ hq))

/-! Concrete data used by the claim theorems. -/

def extA : Str := "#EXTINF:-1 group-title=\"g1\",A".data

def extB : Str := "#EXTINF:-1 group-title=\"g1\",B".data

def extC : Str := "#EXTINF:-1 group-title=\"g2\",C".data

def chA : Channel := { mkChannel extA 0 with url := some "http://a".data }

def chB : Channel := { mkChannel extB 1 with url := some "http://b".data }

def chC : Channel := { mkChannel extC 2 with url := some "http://c".data }

def grpG3 : Str := "g3".data

def patExactA : List Str := ["A".data]

def patAnchorB : List Str := ["B".data]

def chAcopy : Channel := update_group_title chA grpG3

/-- Seven channels for the relocate-set-after-anchor scenario of C1: the
anchor pattern `t3` first matches at index 3, the source patterns `s2`
and `s5` match exactly the records at indices 2 and 5. -/
def mvChans : List Channel :=
  [{ dChan with name := "a0".data }, { dChan with name := "a1".data },
   { dChan with name := "s2".data }, { dChan with name := "t3".data },
   { dChan with name := "a4".data }, { dChan with name := "s5".data },
   { dChan with name := "a6".data }]

def mvSrcPats : List Str := ["s2".data, "s5".data]

def mvTgt : Str := "t3".data

/-- What the code actually produces on the C1 scenario: the moved block
lands two positions after the anchor (right after `a4`), because the
anchor index is taken before the removals and not recomputed. -/
def mvActual : List Channel :=
  [{ dChan with name := "a0".data }, { dChan with name := "a1".data },
   { dChan with name := "t3".data }, { dChan with name := "a4".data },
   { dChan with name := "s2".data }, { dChan with name := "s5".data },
   { dChan with name := "a6".data }]

/-- What C1 (and the spec's §4.3/§8) require: the moved block contiguous
immediately after the anchor's new position. -/
def mvClaimed : List Channel :=
  [{ dChan with name := "a0".data }, { dChan with name := "a1".data },
   { dChan with name := "t3".data }, { dChan with name := "s2".data },
   { dChan with name := "s5".data }, { dChan with name := "a4".data },
   { dChan with name := "a6".data }]

/-- C1: on the scenario of the claim (anchor pattern first matching at
index 3, source patterns matching exactly indices 2 and 5),
`move_channels_after_target` puts the two source records at positions 4
and 5 while the anchor now sits at position 2 — the block is *not*
immediately after the anchor, refuting the claimed ordering (the code
inserts at the pre-removal index `target_idx + 1` without recomputing
the anchor's position after the removals). -/
theorem move_after_anchor_bug :
    find_channel_index mvChans [mvTgt] false = some 3 ∧
    find_all_channel_indices mvChans mvSrcPats false = [2, 5] ∧
    (move_channels_after_target mvChans mvSrcPats mvTgt false).2 = mvActual ∧
    mvActual ≠ mvClaimed := by decide

/-- C3: the duplicate-after-anchor operation on three records named
`A`, `B`, `C` (groups `g1`, `g1`, `g2`) with exact source `A`, anchor
pattern `B` and target group `g3` yields `[A, B, copy-of-A(g3), C]`,
four records, with the copy's metadata line rewritten to group `g3` and
the original `A` (its metadata line and group attribute) unchanged. -/
theorem duplicate_after_anchor_scenario :
    duplicate_after_anchor [chA, chB, chC] patExactA patAnchorB grpG3 =
      [chA, chB, chAcopy, chC] ∧
    chAcopy.name = "A".data ∧
    chAcopy.group_title = grpG3 ∧
    chAcopy.extinf = "#EXTINF:-1 group-title=\"g3\",A".data ∧
    (duplicate_after_anchor [chA, chB, chC] patExactA patAnchorB grpG3).getD 0 dChan =
      chA ∧
    chA.extinf = extA ∧
    chA.group_title = "g1".data ∧
    (duplicate_after_anchor [chA, chB, chC] patExactA patAnchorB grpG3).length = 4 := by
  decide

/-- C8: every lookup miss is a soft failure that leaves the channel
sequence unchanged — a missing anchor or an empty source-match set makes
`move_channels_after_target` return the untouched list, a failed source
or anchor lookup makes the duplicate step a no-op, and a missing exact
name makes the relocate-to-end step (both variants) a no-op; and
`process_channels` always runs all four steps in sequence (no step can
abort the pipeline). -/
theorem soft_failure_no_ops :
    (∀ chans ps t e, find_channel_index chans [t] e = none →
      move_channels_after_target chans ps t e = (false, chans)) ∧
    (∀ chans ps t e, find_all_channel_indices chans ps e = [] →
      move_channels_after_target chans ps t e = (false, chans)) ∧
    (∀ chans sp ap g, find_channel_index chans sp true = none ∨
        find_channel_index chans ap false = none →
      duplicate_after_anchor chans sp ap g = chans) ∧
    (∀ chans np g, find_channel_index chans np true = none →
      move_to_end_v1 chans np g = chans) ∧
    (∀ chans np g, find_channel_index chans np true = none →
      move_to_end_v2 chans np g = chans) ∧
    (∀ chans, process_channels chans =
      move_to_end_v1 ((move_channels_after_target (duplicate_after_anchor
        (relabel_by_patterns chans cgtnPats grpOther) shandongPats cctv1Pats grpCCTV)
        cctv4Pats shaoerPat false).2) radioPats grpRadio) := by
  refine ⟨?_, ?_, ?_, ?_, ?_, ?_⟩
  · intro chans ps t e h
    simp [move_channels_after_target, h]
  · intro chans ps t e h
    cases hf : find_channel_index chans [t] e with
    | none => simp [move_channels_after_target, hf]
    | some tidx => simp [move_channels_after_target, hf, h]
  · intro chans sp ap g h
    rcases h with h | h
    · simp [duplicate_after_anchor, h]
    · cases hs : find_channel_index chans sp true with
      | none => simp [duplicate_after_anchor, hs]
      | some sidx => simp [duplicate_after_anchor, hs, h]
  · intro chans np g h
    simp [move_to_end_v1, h]
  · intro chans np g h
    simp [move_to_end_v2, h]
  · intro chans
    rfl

/-- C8 witness: the soft-failure no-ops at a concrete one-element list
whose single record matches none of the lookups. -/
theorem soft_failure_no_ops_witness :
    move_channels_after_target [chA] [mvTgt] mvTgt false = (false, [chA]) ∧
    duplicate_after_anchor [chA] [mvTgt] [mvTgt] grpG3 = [chA] ∧
    move_to_end_v1 [chA] [mvTgt] grpG3 = [chA] ∧
    move_to_end_v2 [chA] [mvTgt] grpG3 = [chA] :=
  ⟨soft_failure_no_ops.1 _ _ _ _ (by decide),
   soft_failure_no_ops.2.2.1 _ _ _ _ (Or.inl (by decide)),
   soft_failure_no_ops.2.2.2.1 _ _ _ (by decide),
   soft_failure_no_ops.2.2.2.2.1 _ _ _ (by decide)⟩

/-- C9: a locator (non-comment) line appearing before any metadata line
is silently ignored — parsing the lines with it equals parsing the lines
without it. -/
theorem pre_metadata_locator_ignored (pre post : List Str) (l : Str)
    (hpre : ∀ p ∈ pre, extinfMark.isPrefixOf (trim p) = false)
    (hl : (['#'].isPrefixOf (trim l)) = false) :
    parseLines (pre ++ l :: post) = parseLines (pre ++ post) := by
  unfold parseLines
  rw [List.foldl_append, List.foldl_append, foldl_no_meta pre hpre, List.foldl_cons,
    parseStep_locator_no_pending ([], none) l hl rfl]

/-- C9 witness: a stray locator right after the `#EXTM3U` marker and
before the first metadata line changes nothing. -/
theorem pre_metadata_locator_ignored_witness :
    parseLines (["#EXTM3U".data] ++ ("http://stray".data) :: [extA, "http://a".data]) =
      parseLines (["#EXTM3U".data] ++ [extA, "http://a".data]) :=
  pre_metadata_locator_ignored ["#EXTM3U".data] [extA, "http://a".data]
    ("http://stray".data) (by decide) (by decide)

/-- C10: when the exact name is present, relabel-then-pop-then-append
(`process_m3u.py`) and pop-then-relabel-then-append (`process-mul.py`)
produce the same channel sequence. -/
theorem move_to_end_variants_agree (chans : List Channel) (np : List Str) (g : Str)
    (h : find_channel_index chans np true ≠ none) :
    move_to_end_v1 chans np g = move_to_end_v2 chans np g := by
  cases hf : find_channel_index chans np true with
  | none => exact absurd hf h
  | some i =>
    have hlt : i < chans.length := find_channel_index_bound chans np true i hf
    simp only [move_to_end_v1, move_to_end_v2, hf]
    rw [eraseIdx_set_self, getD_set_self chans i _ hlt]

/-- C10 witness: both relocate-to-end variants agree on a concrete
two-record list containing the exactly named record. -/
theorem move_to_end_variants_agree_witness :
    move_to_end_v1 [chB, chA] patExactA grpG3 = move_to_end_v2 [chB, chA] patExactA grpG3 :=
  move_to_end_variants_agree [chB, chA] patExactA grpG3 (by decide)

/-! Lemmas about `trim`. -/

lemma dropWhile_dropWhile (w : Char → Bool) : ∀ l : Str,
    (l.dropWhile w).dropWhile w = l.dropWhile w
  | [] => rfl
  | a :: l => by
    by_cases h : w a
    · simp only [List.dropWhile_cons, h, if_true]
      exact dropWhile_dropWhile w l
    · simp [List.dropWhile_cons, h]

lemma head_false_of_dropWhile_self (w : Char → Bool) (a : Char) (t : Str)
    (hl : (a :: t).dropWhile w = a :: t) : w a = false := by
  cases h : w a with
  | false => rfl
  | true =>
    exfalso
    rw [List.dropWhile_cons, if_pos h] at hl
    have := congrArg List.length hl
    have hle : (t.dropWhile w).length ≤ t.length := (List.dropWhile_sublist _).length_le
    simp only [List.length_cons] at this
    omega

lemma dropWhile_prefix_self (w : Char → Bool) (l l' : Str) (hl : l.dropWhile w = l)
    (hp : l' <+: l) : l'.dropWhile w = l' := by
  cases l' with
  | nil => rfl
  | cons a t =>
    cases l with
    | nil => exact absurd (List.eq_nil_of_prefix_nil hp) (by simp)
    | cons b u =>
      obtain ⟨r, hr⟩ := hp
      rw [List.cons_append] at hr
      injection hr with hab htail
      subst hab
      rw [List.dropWhile_cons, if_neg (by simp [head_false_of_dropWhile_self w a u hl])]

lemma trim_prefix_decomp (s : Str) : ∃ t, (s.dropWhile Char.isWhitespace) = trim s ++ t := by
  refine ⟨((s.dropWhile Char.isWhitespace).reverse.takeWhile Char.isWhitespace).reverse, ?_⟩
  unfold trim
  rw [← List.reverse_append, List.takeWhile_append_dropWhile, List.reverse_reverse]

lemma trim_idem (s : Str) : trim (trim s) = trim s := by
  have hA : (trim s).dropWhile Char.isWhitespace = trim s := by
    obtain ⟨t, ht⟩ := trim_prefix_decomp s
    exact dropWhile_prefix_self Char.isWhitespace _ _
      (dropWhile_dropWhile Char.isWhitespace s) ⟨t, ht.symm⟩
  have hB : ∀ l : Str, trim l =
      ((l.dropWhile Char.isWhitespace).reverse.dropWhile Char.isWhitespace).reverse :=
    fun _ => rfl
  rw [hB (trim s), hA, hB s, List.reverse_reverse, dropWhile_dropWhile]

lemma trim_sublist (s : Str) : (trim s).Sublist s := by
  have h1 : ((s.dropWhile Char.isWhitespace).reverse.dropWhile Char.isWhitespace).Sublist
      (s.dropWhile Char.isWhitespace).reverse := List.dropWhile_sublist _
  have h2 : (trim s).Sublist (s.dropWhile Char.isWhitespace) := by
    have := h1.reverse
    simpa [trim] using this
  exact h2.trans (List.dropWhile_sublist _)

lemma not_mem_trim (a : Char) (s : Str) (h : a ∉ s) : a ∉ trim s :=
  fun hm => h ((trim_sublist s).subset hm)

/-! Lemmas about `splitNl`. -/

lemma splitNl_ne_nil : ∀ s : Str, splitNl s ≠ []
  | [] => by simp [splitNl]
  | c :: cs => by
    by_cases h : c = '\n' <;> simp [splitNl, h]

lemma splitNl_no_newline : ∀ (s : Str) (l : Str), l ∈ splitNl s → '\n' ∉ l
  | [], l, hm => by
    simp [splitNl] at hm
    simp [hm]
  | c :: cs, l, hm => by
    by_cases h : c = '\n'
    · rw [splitNl, if_pos h] at hm
      rcases List.mem_cons.mp hm with h1 | h1
      · simp [h1]
      · exact splitNl_no_newline cs l h1
    · rw [splitNl, if_neg h] at hm
      obtain ⟨hd, tl, hsp⟩ : ∃ hd tl, splitNl cs = hd :: tl := by
        cases hs : splitNl cs with
        | nil => exact absurd hs (splitNl_ne_nil cs)
        | cons hd tl => exact ⟨hd, tl, rfl⟩
      rw [hsp] at hm
      simp only [List.headD_cons, List.tail_cons] at hm
      rcases List.mem_cons.mp hm with h1 | h1
      · subst h1
        intro hmem
        rcases List.mem_cons.mp hmem with h2 | h2
        · exact h h2.symm
        · exact splitNl_no_newline cs hd (by rw [hsp]; exact List.mem_cons_self _ _) h2
      · exact splitNl_no_newline cs l (by rw [hsp]; exact List.mem_cons_of_mem _ h1)

lemma splitNl_of_no_newline : ∀ s : Str, '\n' ∉ s → splitNl s = [s]
  | [], _ => rfl
  | c :: cs, h => by
    have hc : ¬(c = '\n') := fun hh => h (hh ▸ List.mem_cons_self _ _)
    rw [splitNl, if_neg hc, splitNl_of_no_newline cs (fun hm => h (List.mem_cons_of_mem _ hm))]
    rfl

lemma splitNl_line_append : ∀ (x r : Str), '\n' ∉ x →
    splitNl (x ++ '\n' :: r) = x :: splitNl r
  | [], r, _ => by simp [splitNl]
  | c :: cs, r, h => by
    have hc : ¬(c = '\n') := fun hh => h (hh ▸ List.mem_cons_self _ _)
    rw [List.cons_append, splitNl, if_neg hc,
      splitNl_line_append cs r (fun hm => h (List.mem_cons_of_mem _ hm))]
    rfl

lemma splitNl_append_last_nil : ∀ (a b : Str), (splitNl a).getLast? = some [] →
    splitNl (a ++ b) = (splitNl a).dropLast ++ splitNl b
  | [], b, _ => by simp [splitNl]
  | c :: cs, b, hlast => by
    by_cases h : c = '\n'
    · subst h
      rw [splitNl, if_pos rfl] at hlast
      obtain ⟨hd, tl, hsp⟩ : ∃ hd tl, splitNl cs = hd :: tl := by
        cases hs : splitNl cs with
        | nil => exact absurd hs (splitNl_ne_nil cs)
        | cons hd tl => exact ⟨hd, tl, rfl⟩
      rw [hsp, List.getLast?_cons_cons] at hlast
      have ih := splitNl_append_last_nil cs b (by rw [hsp]; exact hlast)
      rw [List.cons_append, splitNl, if_pos rfl, ih, splitNl, if_pos rfl,
        List.dropLast_cons_of_ne_nil (splitNl_ne_nil cs), List.cons_append]
    · obtain ⟨hd, tl, hsp⟩ : ∃ hd tl, splitNl cs = hd :: tl := by
        cases hs : splitNl cs with
        | nil => exact absurd hs (splitNl_ne_nil cs)
        | cons hd tl => exact ⟨hd, tl, rfl⟩
      rw [splitNl, if_neg h, hsp] at hlast
      simp only [List.headD_cons, List.tail_cons] at hlast
      cases tl with
      | nil => simp at hlast
      | cons t0 ts =>
        rw [List.getLast?_cons_cons] at hlast
        have hlast' : (splitNl cs).getLast? = some [] := by
          rw [hsp, List.getLast?_cons_cons]
          exact hlast
        have ih := splitNl_append_last_nil cs b hlast'
        rw [List.cons_append, splitNl, if_neg h, ih, hsp]
        rw [splitNl, if_neg h, hsp]
        have hdl : (hd :: t0 :: ts).dropLast = hd :: (t0 :: ts).dropLast :=
          List.dropLast_cons_of_ne_nil (by simp)
        rw [hdl]
        simp only [List.headD_cons, List.tail_cons, List.cons_append]
        have hdl2 : ((c :: hd) :: t0 :: ts).dropLast = (c :: hd) :: (t0 :: ts).dropLast :=
          List.dropLast_cons_of_ne_nil (by simp)
        rw [hdl2, List.cons_append]

/-! Prefix helpers for the concrete marker strings. -/

lemma prefix_eq_take (pat t : Str) (h : pat.isPrefixOf t = true) : pat = t.take pat.length :=
  List.prefix_iff_eq_take.mp (List.isPrefixOf_iff_prefix.mp h)

lemma prefix_length_le (pat t : Str) (h : pat.isPrefixOf t = true) : pat.length ≤ t.length :=
  (List.isPrefixOf_iff_prefix.mp h).length_le

lemma extinf_ne_nil (t : Str) (h : extinfMark.isPrefixOf t = true) : t ≠ [] := by
  intro ht
  subst ht
  have hle := prefix_length_le extinfMark [] h
  have h8 : extinfMark.length = 8 := by decide
  simp [h8] at hle

lemma extm3u_not_of_extinf (t : Str) (h : extinfMark.isPrefixOf t = true) :
    extm3uMark.isPrefixOf t = false := by
  cases hm : extm3uMark.isPrefixOf t with
  | false => rfl
  | true =>
    exfalso
    have h1 := prefix_eq_take extinfMark t h
    have h2 := prefix_eq_take extm3uMark t hm
    have hl1 : extinfMark.length = 8 := by decide
    have hl2 : extm3uMark.length = 7 := by decide
    rw [hl1] at h1
    rw [hl2] at h2
    have hcontra : extm3uMark = extinfMark.take 7 := by
      rw [h2, h1, List.take_take]
      norm_num
    exact absurd hcontra (by decide)

lemma hash_of_extm3u (t : Str) (h : extm3uMark.isPrefixOf t = true) :
    (['#']).isPrefixOf t = true := by
  have he : extm3uMark = '#' :: "EXTM3U".data := by decide
  rw [he] at h
  exact head_prefix_of_prefix _ _ _ h

lemma hash_of_extinf (t : Str) (h : extinfMark.isPrefixOf t = true) :
    (['#']).isPrefixOf t = true := by
  have he : extinfMark = '#' :: "EXTINF:".data := by decide
  rw [he] at h
  exact head_prefix_of_prefix _ _ _ h

lemma marks_false_of_not_hash (u : Str) (h : (['#']).isPrefixOf u = false) :
    extm3uMark.isPrefixOf u = false ∧ extinfMark.isPrefixOf u = false := by
  constructor
  · cases hx : extm3uMark.isPrefixOf u with
    | false => rfl
    | true => rw [hash_of_extm3u u hx] at h; exact absurd h (by simp)
  · cases hx : extinfMark.isPrefixOf u with
    | false => rfl
    | true => rw [hash_of_extinf u hx] at h; exact absurd h (by simp)

/-- Shape invariant of every record emitted by the parser: the metadata
line is a stripped, newline-free `#EXTINF:` line; the locator is a
stripped, nonempty, newline-free non-comment line; the derived fields
are exactly the extraction functions applied to the metadata line; and
`original_index` is the record's position. -/
def GoodChan (i : Nat) (c : Channel) : Prop :=
  trim c.extinf = c.extinf ∧ extinfMark.isPrefixOf c.extinf = true ∧ '\n' ∉ c.extinf ∧
  (∃ u, c.url = some u ∧ u ≠ [] ∧ trim u = u ∧ (['#']).isPrefixOf u = false ∧ '\n' ∉ u) ∧
  c.name = extract_channel_name c.extinf ∧
  c.tvg_name = extract_tvg_attribute c.extinf tvgNameAttr ∧
  c.group_title = extract_tvg_attribute c.extinf groupTitleAttr ∧
  c.original_index = i

/-- Shape invariant of the pending record between an `#EXTINF:` line and
its locator: in particular its `url` is still `none`. -/
def GoodPending (n : Nat) (c : Channel) : Prop :=
  c.url = none ∧ trim c.extinf = c.extinf ∧ extinfMark.isPrefixOf c.extinf = true ∧
  '\n' ∉ c.extinf ∧ c.name = extract_channel_name c.extinf ∧
  c.tvg_name = extract_tvg_attribute c.extinf tvgNameAttr ∧
  c.group_title = extract_tvg_attribute c.extinf groupTitleAttr ∧
  c.original_index = n

/-- Invariant carried through the parser's line loop. -/
def ParseInv (st : List Channel × Option Channel) : Prop :=
  (∀ i (h : i < st.1.length), GoodChan i st.1[i]) ∧
  (∀ c, st.2 = some c → GoodPending st.1.length c)

lemma parseStep_inv (st : List Channel × Option Channel) (line : Str)
    (hnl : '\n' ∉ line) (hinv : ParseInv st) : ParseInv (parseStep st line) := by
  obtain ⟨acc, pend⟩ := st
  obtain ⟨hacc, hpend⟩ := hinv
  unfold parseStep
  split_ifs with h1 h2 h3 h4
  · exact ⟨hacc, hpend⟩
  · exact ⟨hacc, hpend⟩
  · -- an #EXTINF: line opens a fresh pending record; the old pending one
    -- (whose url is still none) is dropped, the emitted list is unchanged
    have hnew : GoodPending acc.length (mkChannel (trim line) acc.length) :=
      ⟨rfl, trim_idem line, h3, not_mem_trim _ _ hnl, rfl, rfl, rfl, rfl⟩
    cases pend with
    | none =>
      refine ⟨hacc, ?_⟩
      intro c hc
      injection hc with hc
      subst hc
      exact hnew
    | some pc =>
      have hu : pc.url = none := (hpend pc rfl).1
      simp only [hu, urlTruthy, Bool.false_eq_true, if_false]
      refine ⟨hacc, ?_⟩
      intro c hc
      injection hc with hc
      subst hc
      exact hnew
  · -- a locator line closes the pending record
    cases pend with
    | none => simp at h4
    | some pc =>
      obtain ⟨hpu, hpt, hppre, hpnl, hpname, hptvg, hpgrp, hpidx⟩ := hpend pc rfl
      rw [Bool.and_eq_true, Bool.not_eq_true'] at h4
      show ParseInv (acc ++ [{ pc with url := some (trim line) }], none)
      refine ⟨?_, ?_⟩
      · intro i hilt
        simp only [List.length_append, List.length_cons, List.length_nil] at hilt
        rw [List.getElem_append]
        split
        next hia => exact hacc i hia
        next hia =>
          have hieq : i = acc.length := by omega
          subst hieq
          simp only [Nat.sub_self, List.getElem_cons_zero]
          refine ⟨hpt, hppre, hpnl, ⟨trim line, rfl, ?_, trim_idem line, h4.1, not_mem_trim _ _ hnl⟩,
            hpname, hptvg, hpgrp, hpidx⟩
          intro hnil
          rw [hnil] at h1
          exact h1 rfl
      · intro c hc
        simp at hc
  · exact ⟨hacc, hpend⟩

lemma foldl_parseStep_inv : ∀ (ls : List Str) (st : List Channel × Option Channel),
    (∀ l ∈ ls, '\n' ∉ l) → ParseInv st → ParseInv (ls.foldl parseStep st)
  | [], _, _, hinv => hinv
  | l :: ls, st, h, hinv => by
    simp only [List.foldl_cons]
    exact foldl_parseStep_inv ls _ (fun q hq => h q (List.mem_cons_of_mem _ hq))
      (parseStep_inv st l (h l (List.mem_cons_self _ _)) hinv)

lemma resolvePending_of_inv (st : List Channel × Option Channel) (hinv : ParseInv st) :
    resolvePending st = st.1 := by
  obtain ⟨acc, pend⟩ := st
  cases pend with
  | none => rfl
  | some pc =>
    have hu := (hinv.2 pc rfl).1
    simp [resolvePending, urlTruthy, hu]

lemma parseLines_eq_fst (ls : List Str) (h : ∀ l ∈ ls, '\n' ∉ l) :
    parseLines ls = (ls.foldl parseStep ([], none)).1 :=
  resolvePending_of_inv _ (foldl_parseStep_inv ls ([], none) h
    ⟨fun i hi => by simp at hi, fun c hc => by simp at hc⟩)

lemma parse_m3u_good (content : Str) :
    ∀ i (hi : i < (parse_m3u content).length), GoodChan i (parse_m3u content)[i] := by
  have hinv := foldl_parseStep_inv (splitNl content) ([], none)
    (fun l hl => splitNl_no_newline content l hl)
    ⟨fun i hi => by simp at hi, fun c hc => by simp at hc⟩
  have heq : parse_m3u content = ((splitNl content).foldl parseStep ([], none)).1 :=
    parseLines_eq_fst (splitNl content) (fun l hl => splitNl_no_newline content l hl)
  rw [heq]
  exact hinv.1

/-- The metadata/locator line pairs of a channel list, as they come back
from `splitNl` after rendering. -/
def chanLines (chs : List Channel) : List Str :=
  (chs.map (fun c => [c.extinf, c.url.getD []])).flatten

lemma foldl_chanLines : ∀ (chs : List Channel) (acc : List Channel),
    (∀ i (h : i < chs.length), GoodChan (acc.length + i) chs[i]) →
    (chanLines chs).foldl parseStep (acc, none) = (acc ++ chs, none)
  | [], acc, _ => by simp [chanLines]
  | c :: cs, acc, hg => by
    have hg0 := hg 0 (by simp)
    simp only [List.getElem_cons_zero] at hg0
    obtain ⟨he_trim, he_pre, he_nl, ⟨u, hu, hu_ne, hu_trim, hu_hash, hu_nl⟩,
      hname, htvg, hgrp, hidx⟩ := hg0
    have hcl : chanLines (c :: cs) = c.extinf :: c.url.getD [] :: chanLines cs := by
      simp [chanLines]
    rw [hcl]
    simp only [List.foldl_cons]
    have hne : c.extinf.isEmpty = false := by
      cases hx : c.extinf with
      | nil => exact absurd hx (extinf_ne_nil _ he_pre)
      | cons a t => rfl
    have hstep1 : parseStep (acc, none) c.extinf = (acc, some { c with url := none }) := by
      unfold parseStep
      rw [he_trim, hne, extm3u_not_of_extinf _ he_pre, he_pre]
      simp only [Bool.false_eq_true, if_false, if_true]
      have hmk : mkChannel c.extinf acc.length = { c with url := none } := by
        simp [mkChannel, Channel.mk.injEq, hname, htvg, hgrp, hidx]
      rw [hmk]
    have hstep2 : parseStep (acc, some { c with url := none }) (c.url.getD []) =
        (acc ++ [c], none) := by
      rw [hu]
      simp only [Option.getD_some]
      have hmarks := marks_false_of_not_hash u hu_hash
      have hune : u.isEmpty = false := by
        cases hx : u with
        | nil => exact absurd hx hu_ne
        | cons a t => rfl
      unfold parseStep
      rw [hu_trim, hune, hmarks.1, hmarks.2, hu_hash]
      simp only [Bool.false_eq_true, if_false, Bool.not_false, Option.isSome_some,
        Bool.and_self, if_true]
      show (acc ++ [{ c with url := some u }], none) = (acc ++ [c], none)
      have hcc : ({ c with url := some u } : Channel) = c := by
        rw [← hu]
      rw [hcc]
    rw [hstep1, hstep2]
    have harg : ∀ i (h : i < cs.length), GoodChan ((acc ++ [c]).length + i) cs[i] := by
      intro i hilt
      have heqn : (acc ++ [c]).length + i = acc.length + (i + 1) := by
        simp only [List.length_append, List.length_cons, List.length_nil]
        omega
      rw [heqn]
      have h2 := hg (i + 1) (by simpa using hilt)
      simpa using h2
    rw [foldl_chanLines cs (acc ++ [c]) harg]
    simp

lemma parseStep_commentish (st : List Channel × Option Channel) (l : Str)
    (hc : commentish l = true) : parseStep st l = st := by
  unfold commentish at hc
  rw [Bool.or_eq_true] at hc
  unfold parseStep
  split_ifs with h1 h2 h3 h4
  · rfl
  · rfl
  · exfalso
    rcases hc with hc | hc
    · exact h1 hc
    · rw [Bool.and_eq_true, h3] at hc
      simp at hc
  · exfalso
    rcases hc with hc | hc
    · exact h1 hc
    · rw [Bool.and_eq_true] at hc h4
      rw [hc.1] at h4
      simp at h4
  · rfl

lemma foldl_commentish : ∀ (ls : List Str) (st : List Channel × Option Channel),
    (∀ l ∈ ls, commentish l = true) → ls.foldl parseStep st = st
  | [], _, _ => rfl
  | l :: ls, st, h => by
    simp only [List.foldl_cons, parseStep_commentish st l (h l (List.mem_cons_self _ _))]
    exact foldl_commentish ls st (fun q hq => h q (List.mem_cons_of_mem _ hq))

lemma splitNl_renderBody : ∀ (chs : List Channel),
    (∀ c ∈ chs, '\n' ∉ c.extinf ∧ '\n' ∉ c.url.getD []) →
    splitNl (renderBody chs) = chanLines chs ++ [[]]
  | [], _ => by simp [renderBody, chanLines, splitNl]
  | c :: cs, h => by
    have hc := h c (List.mem_cons_self _ _)
    have hrb : renderBody (c :: cs) =
        c.extinf ++ '\n' :: (c.url.getD [] ++ '\n' :: renderBody cs) := by
      simp [renderBody]
    rw [hrb, splitNl_line_append _ _ hc.1, splitNl_line_append _ _ hc.2,
      splitNl_renderBody cs (fun q hq => h q (List.mem_cons_of_mem _ hq))]
    simp [chanLines]

/-- Parsing the rendered output of any `GoodChan` channel list (under
any parser-transparent header) recovers the channel list exactly. -/
lemma parse_render (header : Str) (chs : List Channel) (hh : headerOk header = true)
    (hg : ∀ i (h : i < chs.length), GoodChan i chs[i]) :
    parse_m3u (generate_m3u_content header chs) = chs := by
  rw [headerOk, Bool.and_eq_true] at hh
  have hlast : (splitNl header).getLast? = some [] := by
    have := hh.1
    exact eq_of_beq this
  have hall := List.all_eq_true.mp hh.2
  have hmem : ∀ c ∈ chs, '\n' ∉ c.extinf ∧ '\n' ∉ c.url.getD [] := by
    intro c hcm
    obtain ⟨i, hil, hieq⟩ := List.mem_iff_getElem.mp hcm
    obtain ⟨_, _, hnl, ⟨u, huu, _, _, _, hunl⟩, _⟩ := hg i hil
    subst hieq
    refine ⟨hnl, ?_⟩
    rw [huu]
    simpa using hunl
  show parseLines (splitNl (header ++ renderBody chs)) = chs
  rw [splitNl_append_last_nil header (renderBody chs) hlast, splitNl_renderBody chs hmem]
  unfold parseLines
  rw [← List.append_assoc, List.foldl_append, List.foldl_append]
  rw [foldl_commentish ((splitNl header).dropLast) ([], none) (fun l hl =>
    hall l ((List.dropLast_sublist _).subset hl))]
  rw [foldl_chanLines chs [] (by intro i hi; simpa using hg i hi)]
  have hcend : commentish [] = true := by decide
  rw [List.foldl_cons, parseStep_commentish (([] ++ chs : List Channel), none) [] hcend,
    List.foldl_nil]
  simp [resolvePending]

/-- C2: one parse/render cycle is a fixed point of serialization — for
every input text and every parser-transparent header held fixed across
the two renders (the script's header qualifies for any timestamp),
rendering the re-parse of the rendered parse gives back, character for
character, the render of the parse. -/
theorem render_parse_roundtrip (header content : Str) (hh : headerOk header = true) :
    generate_m3u_content header (parse_m3u (generate_m3u_content header (parse_m3u content))) =
      generate_m3u_content header (parse_m3u content) := by
  rw [parse_render header (parse_m3u content) hh (parse_m3u_good content)]

/-- Sample playlist text for the C2 witness. -/
def sampleContent : Str :=
  ("#EXTM3U\n#EXTINF:-1 tvg-name=\"A\" group-title=\"g1\",A\nhttp://a\n#EXTINF:-1,B\nhttp://b\n").data

/-- C2 witness: the round-trip theorem applied to the script's own
header (at a fixed timestamp) and a concrete two-channel playlist. -/
theorem render_parse_roundtrip_witness :
    headerOk headerText = true ∧
    generate_m3u_content headerText
        (parse_m3u (generate_m3u_content headerText (parse_m3u sampleContent))) =
      generate_m3u_content headerText (parse_m3u sampleContent) :=
  ⟨by decide, render_parse_roundtrip headerText sampleContent (by decide)⟩

lemma isEmpty_false_of_ne (l : Str) (h : l ≠ []) : l.isEmpty = false := by
  cases l with
  | nil => exact absurd rfl h
  | cons a t => rfl

lemma splitNl_cons_nl (cs : Str) : splitNl ('\n' :: cs) = [] :: splitNl cs := by
  rw [splitNl, if_pos rfl]

lemma splitNl_cons_other (c : Char) (cs : Str) (hc : ¬(c = '\n')) :
    splitNl (c :: cs) = (c :: (splitNl cs).headD []) :: (splitNl cs).tail := by
  rw [splitNl, if_neg hc]

lemma splitNl_append_line : ∀ (a e : Str), '\n' ∉ e →
    splitNl (a ++ '\n' :: e) = splitNl a ++ [e]
  | [], e, he => by
    rw [List.nil_append, splitNl_cons_nl, splitNl_of_no_newline e he]
    rfl
  | c :: a', e, he => by
    by_cases hc : c = '\n'
    · subst hc
      rw [List.cons_append, splitNl_cons_nl, splitNl_append_line a' e he, splitNl_cons_nl,
        List.cons_append]
    · obtain ⟨hd, tl, hsp⟩ : ∃ hd tl, splitNl a' = hd :: tl := by
        cases hs : splitNl a' with
        | nil => exact absurd hs (splitNl_ne_nil a')
        | cons hd tl => exact ⟨hd, tl, rfl⟩
      rw [List.cons_append, splitNl_cons_other c _ hc, splitNl_append_line a' e he, hsp,
        splitNl_cons_other c _ hc, hsp]
      simp

/-- Weak parser invariant: the pending record never carries a locator
(its `url` is still `None`) — it is only ever filled in the branch that
immediately emits and clears it. -/
def PendingNone (st : List Channel × Option Channel) : Prop :=
  ∀ c, st.2 = some c → c.url = none

lemma parseStep_pending_none (st : List Channel × Option Channel) (line : Str)
    (hp : PendingNone st) : PendingNone (parseStep st line) := by
  obtain ⟨acc, pend⟩ := st
  unfold parseStep
  split_ifs with h1 h2 h3 h4
  · exact hp
  · exact hp
  · cases pend with
    | none =>
      intro c hc
      injection hc with hc
      subst hc
      rfl
    | some pc =>
      show PendingNone (if urlTruthy pc.url = true then
          (acc ++ [pc], some (mkChannel (trim line) (acc ++ [pc]).length))
        else (acc, some (mkChannel (trim line) acc.length)))
      by_cases hurl : urlTruthy pc.url = true
      · rw [if_pos hurl]
        intro c hc
        injection hc with hc
        subst hc
        rfl
      · rw [if_neg hurl]
        intro c hc
        injection hc with hc
        subst hc
        rfl
  · cases pend with
    | none => exact hp
    | some pc =>
      intro c hc
      simp at hc
  · exact hp

lemma foldl_pending_none : ∀ (ls : List Str) (st : List Channel × Option Channel),
    PendingNone st → PendingNone (ls.foldl parseStep st)
  | [], _, hp => hp
  | l :: ls, st, hp => by
    simp only [List.foldl_cons]
    exact foldl_pending_none ls _ (parseStep_pending_none st l hp)

lemma parseStep_extinf_of_pending_none (st : List Channel × Option Channel) (e : Str)
    (he : extinfMark.isPrefixOf (trim e) = true) (hp : PendingNone st) :
    parseStep st e = (st.1, some (mkChannel (trim e) st.1.length)) := by
  obtain ⟨acc, pend⟩ := st
  have hne : (trim e).isEmpty = false :=
    isEmpty_false_of_ne _ (extinf_ne_nil _ he)
  unfold parseStep
  rw [hne, extm3u_not_of_extinf _ he, he]
  simp only [Bool.false_eq_true, if_false, if_true]
  cases pend with
  | none => rfl
  | some pc =>
    show (if urlTruthy pc.url = true then
        (acc ++ [pc], some (mkChannel (trim e) (acc ++ [pc]).length))
      else (acc, some (mkChannel (trim e) acc.length))) =
      (acc, some (mkChannel (trim e) acc.length))
    rw [hp pc rfl]
    simp [urlTruthy]

lemma resolvePending_of_pending_none (st : List Channel × Option Channel)
    (hp : PendingNone st) : resolvePending st = st.1 := by
  obtain ⟨acc, pend⟩ := st
  cases pend with
  | none => rfl
  | some pc =>
    have := hp pc rfl
    simp [resolvePending, urlTruthy, this]

/-- C6: every record the parser outputs has both fields set — a
metadata line at end of input with no following locator produces no
record (and does not count towards the length), and a metadata line
immediately followed by another metadata line is discarded. -/
theorem metadata_without_locator_dropped :
    (∀ content c, c ∈ parse_m3u content → ∃ u, c.url = some u ∧ u ≠ []) ∧
    (∀ content e, '\n' ∉ e → extinfMark.isPrefixOf (trim e) = true →
      parse_m3u (content ++ '\n' :: e) = parse_m3u content) ∧
    (∀ l1 e e2 l2, extinfMark.isPrefixOf (trim e) = true →
      extinfMark.isPrefixOf (trim e2) = true →
      parseLines (l1 ++ e :: e2 :: l2) = parseLines (l1 ++ e2 :: l2)) := by
  refine ⟨?_, ?_, ?_⟩
  · intro content c hcm
    obtain ⟨i, hil, hieq⟩ := List.mem_iff_getElem.mp hcm
    obtain ⟨_, _, _, ⟨u, huu, hune, _⟩, _⟩ := parse_m3u_good content i hil
    exact ⟨u, by rw [← hieq]; exact huu, hune⟩
  · intro content e hnl he
    unfold parse_m3u parseLines
    rw [splitNl_append_line content e hnl, List.foldl_append]
    have hp := foldl_pending_none (splitNl content) ([], none) (fun c hc => by simp at hc)
    rw [List.foldl_cons, List.foldl_nil,
      parseStep_extinf_of_pending_none _ e he hp,
      resolvePending_of_pending_none _ hp]
    exact resolvePending_of_pending_none _ (fun c hc => by
      injection hc with hc
      subst hc
      rfl)
  · intro l1 e e2 l2 he he2
    unfold parseLines
    rw [List.foldl_append, List.foldl_append]
    have hp := foldl_pending_none l1 ([], none) (fun c hc => by simp at hc)
    rw [List.foldl_cons, List.foldl_cons, List.foldl_cons,
      parseStep_extinf_of_pending_none _ e he hp,
      parseStep_extinf_of_pending_none _ e2 he2 (fun c hc => by
        injection hc with hc
        subst hc
        rfl),
      parseStep_extinf_of_pending_none _ e2 he2 hp]

/-- C6 witness: the drop rules at concrete inputs — appending a trailing
metadata line to the sample playlist changes nothing, a doubled metadata
line collapses to its second occurrence, and the records of the sample
playlist all carry locators. -/
theorem metadata_without_locator_dropped_witness :
    parse_m3u (sampleContent ++ '\n' :: extC) = parse_m3u sampleContent ∧
    parseLines ([extA] ++ extB :: extC :: ["http://c".data]) =
      parseLines ([extA] ++ extC :: ["http://c".data]) ∧
    (∃ u, ((parse_m3u sampleContent).getD 0 dChan).url = some u ∧ u ≠ []) :=
  ⟨metadata_without_locator_dropped.2.1 sampleContent extC (by decide) (by decide),
   metadata_without_locator_dropped.2.2 [extA] extB extC ["http://c".data]
     (by decide) (by decide),
   metadata_without_locator_dropped.1 sampleContent _ (by decide)⟩

/-! Substring and prefix lemmas used by the relabel proofs. -/

lemma isPrefixOf_cons_cons (p c : Char) (ps cs : Str) :
    (p :: ps).isPrefixOf (c :: cs) = ((p == c) && ps.isPrefixOf cs) := rfl

lemma isPrefixOf_cons_neg (p c : Char) (ps cs : Str) (h : ¬(p = c)) :
    (p :: ps).isPrefixOf (c :: cs) = false := by
  rw [isPrefixOf_cons_cons]
  simp [h]

lemma isPrefixOf_append_self (x r : Str) : x.isPrefixOf (x ++ r) = true :=
  List.isPrefixOf_iff_prefix.mpr ⟨r, rfl⟩

lemma exists_of_isPrefixOf (pat s : Str) (h : pat.isPrefixOf s = true) :
    ∃ r, s = pat ++ r := by
  obtain ⟨r, hr⟩ := List.isPrefixOf_iff_prefix.mp h
  exact ⟨r, hr.symm⟩

lemma isPrefixOf_of_append_isPrefixOf (x y s : Str) (h : (x ++ y).isPrefixOf s = true) :
    x.isPrefixOf s = true :=
  List.isPrefixOf_iff_prefix.mpr ((x.prefix_append y).trans (List.isPrefixOf_iff_prefix.mp h))

lemma occurs_cons (pat : Str) (c : Char) (cs : Str) :
    occurs pat (c :: cs) = (pat.isPrefixOf (c :: cs) || occurs pat cs) := rfl

lemma occurs_of_isPrefixOf (pat s : Str) (h : pat.isPrefixOf s = true) :
    occurs pat s = true := by
  cases s with
  | nil =>
    obtain ⟨r, hr⟩ := exists_of_isPrefixOf pat [] h
    have : pat = [] := by
      cases pat with
      | nil => rfl
      | cons a t => simp at hr
    simp [occurs, this]
  | cons c cs =>
    rw [occurs_cons, h]
    rfl

lemma occurs_append_right (pat s : Str) (h : occurs pat s = true) :
    ∀ x : Str, occurs pat (x ++ s) = true
  | [] => h
  | c :: x' => by
    rw [List.cons_append, occurs_cons, occurs_append_right pat s h x']
    simp

lemma occurs_false_of_append (pat x s : Str) (h : occurs pat (x ++ s) = false) :
    occurs pat s = false := by
  cases hs : occurs pat s with
  | false => rfl
  | true => rw [occurs_append_right pat s hs x] at h; exact absurd h (by simp)

lemma occurs_false_drop (pat s : Str) (k : Nat) (h : occurs pat s = false) :
    occurs pat (s.drop k) = false :=
  occurs_false_of_append pat (s.take k) (s.drop k)
    (by rw [List.take_append_drop]; exact h)

lemma occurs_false_cons (pat : Str) (c : Char) (cs : Str)
    (h : occurs pat (c :: cs) = false) :
    pat.isPrefixOf (c :: cs) = false ∧ occurs pat cs = false := by
  rw [occurs_cons, Bool.or_eq_false_iff] at h
  exact h

lemma takeWhile_through (v R : Str) (hv : '"' ∉ v) :
    (v ++ '"' :: R).takeWhile (fun x => x ≠ '"') = v := by
  induction v with
  | nil => simp [List.takeWhile_cons]
  | cons a v' ih =>
    have ha : a ≠ '"' := fun hh => hv (hh ▸ List.mem_cons_self _ _)
    rw [List.cons_append, List.takeWhile_cons, if_pos (decide_eq_true ha),
      ih (fun hm => hv (List.mem_cons_of_mem _ hm))]

lemma dropWhile_through (v R : Str) (hv : '"' ∉ v) :
    (v ++ '"' :: R).dropWhile (fun x => x ≠ '"') = '"' :: R := by
  induction v with
  | nil => simp [List.dropWhile_cons]
  | cons a v' ih =>
    have ha : a ≠ '"' := fun hh => hv (hh ▸ List.mem_cons_self _ _)
    rw [List.cons_append, List.dropWhile_cons, if_pos (decide_eq_true ha),
      ih (fun hm => hv (List.mem_cons_of_mem _ hm))]

lemma findValue_cons_pos (p : Char) (ps : Str) (c : Char) (cs : Str)
    (h : (p :: ps).isPrefixOf (c :: cs) ∧ '"' ∈ cs.drop ps.length) :
    findValue p ps (c :: cs) = some ((cs.drop ps.length).takeWhile (fun x => x ≠ '"')) := by
  rw [findValue, if_pos h]

lemma findValue_cons_neg (p : Char) (ps : Str) (c : Char) (cs : Str)
    (h : ¬((p :: ps).isPrefixOf (c :: cs) ∧ '"' ∈ cs.drop ps.length)) :
    findValue p ps (c :: cs) = findValue p ps cs := by
  rw [findValue, if_neg h]

/-- Characters of the pattern tail never start a `group-title="` match,
so `re.sub` copies a pattern-free prefix verbatim. -/
lemma subAll_peel (rep : Str) : ∀ (q s : Str), 'g' ∉ q →
    subAll 'g' gtqTail rep (q ++ s) = q ++ subAll 'g' gtqTail rep s
  | [], s, _ => by simp
  | x :: q', s, hq => by
    have hx : ¬('g' = x) := fun hh => hq (by rw [hh]; exact List.mem_cons_self _ _)
    rw [List.cons_append, subAll_cons_skip _ _ _ _ _ (by
        intro hcon
        rw [isPrefixOf_cons_neg 'g' x gtqTail _ hx] at hcon
        exact absurd hcon.1 (by simp)),
      subAll_peel rep q' s (fun hm => hq (List.mem_cons_of_mem _ hm)), List.cons_append]

lemma replaceAll_peel (rep : Str) : ∀ (q s : Str), '#' ∉ q →
    replaceAll '#' tokTail rep (q ++ s) = q ++ replaceAll '#' tokTail rep s
  | [], s, _ => by simp
  | x :: q', s, hq => by
    have hx : ¬('#' = x) := fun hh => hq (by rw [hh]; exact List.mem_cons_self _ _)
    rw [List.cons_append, replaceAll_cons_skip _ _ _ _ _ (by
        intro hcon
        rw [isPrefixOf_cons_neg '#' x tokTail _ hx] at hcon
        exact absurd hcon (by simp)),
      replaceAll_peel rep q' s (fun hm => hq (List.mem_cons_of_mem _ hm)), List.cons_append]

/-- A `g`-free prefix of the output of `re.sub` is already a prefix of
its input (the replacement text starts with `g`). -/
lemma subAll_prefix_transfer (r' : Str) : ∀ (n : Nat) (s q : Str), s.length ≤ n →
    'g' ∉ q → q.isPrefixOf (subAll 'g' gtqTail ('g' :: r') s) = true →
    q.isPrefixOf s = true := by
  intro n
  induction n with
  | zero =>
    intro s q hn _ hpre
    have hs : s = [] := List.length_eq_zero.mp (Nat.le_zero.mp hn)
    subst hs
    exact hpre
  | succ n ih =>
    intro s q hn hq hpre
    cases s with
    | nil => exact hpre
    | cons c cs =>
      simp only [List.length_cons] at hn
      by_cases hm : ('g' :: gtqTail : Str).isPrefixOf (c :: cs) ∧ '"' ∈ cs.drop gtqTail.length
      · rw [subAll_cons_match 'g' gtqTail ('g' :: r') c cs hm] at hpre
        cases q with
        | nil => rfl
        | cons qh qt =>
          exfalso
          rw [List.cons_append, isPrefixOf_cons_cons, Bool.and_eq_true] at hpre
          have hg : qh = 'g' := eq_of_beq hpre.1
          exact hq (by rw [← hg]; exact List.mem_cons_self _ _)
      · rw [subAll_cons_skip 'g' gtqTail ('g' :: r') c cs hm] at hpre
        cases q with
        | nil => rfl
        | cons qh qt =>
          rw [isPrefixOf_cons_cons, Bool.and_eq_true] at hpre ⊢
          exact ⟨hpre.1, ih cs qt (by omega)
            (fun hm2 => hq (List.mem_cons_of_mem _ hm2)) hpre.2⟩

/-- A hash-free prefix of the output of the `str.replace` step is a
prefix of its input (the replacement text starts with `#`). -/
lemma replaceAll_prefix_transfer (r' : Str) : ∀ (n : Nat) (s q : Str), s.length ≤ n →
    '#' ∉ q → q.isPrefixOf (replaceAll '#' tokTail ('#' :: r') s) = true →
    q.isPrefixOf s = true := by
  intro n
  induction n with
  | zero =>
    intro s q hn _ hpre
    have hs : s = [] := List.length_eq_zero.mp (Nat.le_zero.mp hn)
    subst hs
    exact hpre
  | succ n ih =>
    intro s q hn hq hpre
    cases s with
    | nil => exact hpre
    | cons c cs =>
      simp only [List.length_cons] at hn
      by_cases hm : ('#' :: tokTail : Str).isPrefixOf (c :: cs)
      · rw [replaceAll_cons_match '#' tokTail ('#' :: r') c cs hm] at hpre
        cases q with
        | nil => rfl
        | cons qh qt =>
          exfalso
          rw [List.cons_append, isPrefixOf_cons_cons, Bool.and_eq_true] at hpre
          have hg : qh = '#' := eq_of_beq hpre.1
          exact hq (by rw [← hg]; exact List.mem_cons_self _ _)
      · rw [replaceAll_cons_skip '#' tokTail ('#' :: r') c cs hm] at hpre
        cases q with
        | nil => rfl
        | cons qh qt =>
          rw [isPrefixOf_cons_cons, Bool.and_eq_true] at hpre ⊢
          have hlen : (cs.drop tokTail.length).length ≤ cs.length := by
            simp [List.length_drop]
          exact ⟨hpre.1, ih cs qt (by omega)
            (fun hm2 => hq (List.mem_cons_of_mem _ hm2)) hpre.2⟩

/-- The `re.sub` step introduces no quote at a position where its input
had none: a quote in the output means a quote in the input. -/
lemma subAll_quote_mem (rep : Str) : ∀ (n : Nat) (s : Str), s.length ≤ n →
    '"' ∈ subAll 'g' gtqTail rep s → '"' ∈ s := by
  intro n
  induction n with
  | zero =>
    intro s hn hmem
    have hs : s = [] := List.length_eq_zero.mp (Nat.le_zero.mp hn)
    subst hs
    exact hmem
  | succ n ih =>
    intro s hn hmem
    cases s with
    | nil => exact hmem
    | cons c cs =>
      simp only [List.length_cons] at hn
      by_cases hm : ('g' :: gtqTail : Str).isPrefixOf (c :: cs) ∧ '"' ∈ cs.drop gtqTail.length
      · exact (List.isPrefixOf_iff_prefix.mp hm.1).subset (by decide)
      · rw [subAll_cons_skip 'g' gtqTail rep c cs hm] at hmem
        rcases List.mem_cons.mp hmem with h1 | h1
        · rw [h1]; exact List.mem_cons_self _ _
        · exact List.mem_cons_of_mem _ (ih cs (by omega) h1)

lemma subAll_nil_eq (p : Char) (ps rep : Str) : subAll p ps rep [] = [] := rfl

lemma replaceAll_nil_eq (p : Char) (ps rep : Str) : replaceAll p ps rep [] = [] := rfl

/-- Unfolding of `re.sub` at a match sitting at the head of the text. -/
lemma subAll_head_match (rep v R : Str) (hv : '"' ∉ v) :
    subAll 'g' gtqTail rep ('g' :: (gtqTail ++ (v ++ '"' :: R))) =
      rep ++ subAll 'g' gtqTail rep R := by
  have hpre : ('g' :: gtqTail : Str).isPrefixOf ('g' :: (gtqTail ++ (v ++ '"' :: R))) = true := by
    rw [isPrefixOf_cons_cons, isPrefixOf_append_self]
    rfl
  have hqmem : '"' ∈ (gtqTail ++ (v ++ '"' :: R)).drop gtqTail.length := by
    rw [List.drop_left]
    exact List.mem_append_right v (List.mem_cons_self _ _)
  rw [subAll_cons_match 'g' gtqTail rep 'g' (gtqTail ++ (v ++ '"' :: R)) ⟨hpre, hqmem⟩,
    List.drop_left, dropWhile_through v R hv]
  rfl

lemma gtq_no_border : ∀ k, k < 13 → 0 < k →
    ('g' :: gtqTail : Str).drop k ≠ ('g' :: gtqTail : Str).take (13 - k) := by decide

/-- No `group-title="` match can start strictly inside a pattern-free
text followed by the pattern itself: the pattern has no nontrivial
self-overlap. -/
lemma no_match_in_seam (a R : Str) (hne : a ≠ [])
    (hocc : occurs ('g' :: gtqTail) a = false) :
    ('g' :: gtqTail : Str).isPrefixOf (a ++ (('g' :: gtqTail) ++ R)) = false := by
  cases hp : ('g' :: gtqTail : Str).isPrefixOf (a ++ (('g' :: gtqTail) ++ R)) with
  | false => rfl
  | true =>
    exfalso
    have hlen : ('g' :: gtqTail : Str).length = 13 := by decide
    have htake := prefix_eq_take _ _ hp
    rw [hlen] at htake
    by_cases hal : 13 ≤ a.length
    · rw [List.take_append_of_le_length hal] at htake
      have hpa : ('g' :: gtqTail : Str).isPrefixOf a = true := by
        apply List.isPrefixOf_iff_prefix.mpr
        rw [List.prefix_iff_eq_take, hlen]
        exact htake
      rw [occurs_of_isPrefixOf _ _ hpa] at hocc
      exact absurd hocc (by simp)
    · push_neg at hal
      rw [List.take_append_eq_append_take, List.take_of_length_le (le_of_lt hal),
        List.take_append_of_le_length (by rw [hlen]; omega)] at htake
      have hdrop : ('g' :: gtqTail : Str).drop a.length =
          ('g' :: gtqTail : Str).take (13 - a.length) := by
        conv_lhs => rw [htake]
        rw [List.drop_left]
      exact gtq_no_border a.length hal (List.length_pos.mpr hne) hdrop

/-- How `re.sub` rewrites a text consisting of a pattern-free prefix, a
quoted group-title attribute, and a remainder: the prefix is copied, the
attribute's value is replaced, and the remainder is rewritten
recursively. -/
lemma subAll_seam (rep v : Str) (hv : '"' ∉ v) : ∀ (a b : Str),
    occurs ('g' :: gtqTail) a = false →
    subAll 'g' gtqTail rep (a ++ (('g' :: gtqTail) ++ (v ++ '"' :: b))) =
      a ++ (rep ++ subAll 'g' gtqTail rep b)
  | [], b, _ => by
    rw [List.nil_append, List.nil_append]
    exact subAll_head_match rep v b hv
  | x :: a', b, hocc => by
    have hskip : ¬(('g' :: gtqTail : Str).isPrefixOf
        ((x :: a') ++ (('g' :: gtqTail) ++ (v ++ '"' :: b))) ∧
        '"' ∈ (a' ++ (('g' :: gtqTail) ++ (v ++ '"' :: b))).drop gtqTail.length) := by
      intro hcon
      rw [no_match_in_seam (x :: a') (v ++ '"' :: b) (by simp) hocc] at hcon
      exact absurd hcon.1 (by simp)
    rw [List.cons_append, subAll_cons_skip 'g' gtqTail rep x
        (a' ++ (('g' :: gtqTail) ++ (v ++ '"' :: b))) (by
          intro hcon
          exact hskip ⟨by rw [List.cons_append]; exact hcon.1, hcon.2⟩),
      subAll_seam rep v hv a' b (occurs_false_cons _ _ _ hocc).2, List.cons_append]

/-- How `re.search` reads the first quoted group-title attribute out of
such a text: it returns exactly the attribute's value. -/
lemma findValue_seam (v : Str) (hv : '"' ∉ v) : ∀ (a B : Str),
    occurs ('g' :: gtqTail) a = false →
    findValue 'g' gtqTail (a ++ (('g' :: gtqTail) ++ (v ++ '"' :: B))) = some v
  | [], B, _ => by
    rw [List.nil_append, List.cons_append, findValue_cons_pos 'g' gtqTail 'g'
        (gtqTail ++ (v ++ '"' :: B)) ⟨by
          rw [isPrefixOf_cons_cons, isPrefixOf_append_self]
          rfl, by
          rw [List.drop_left]
          exact List.mem_append_right v (List.mem_cons_self _ _)⟩,
      List.drop_left, takeWhile_through v B hv]
  | x :: a', B, hocc => by
    rw [List.cons_append, findValue_cons_neg 'g' gtqTail x
        (a' ++ (('g' :: gtqTail) ++ (v ++ '"' :: B))) (by
          intro hcon
          have := no_match_in_seam (x :: a') (v ++ '"' :: B) (by simp) hocc
          rw [List.cons_append] at this
          rw [this] at hcon
          exact absurd hcon.1 (by simp)),
      findValue_seam v hv a' B (occurs_false_cons _ _ _ hocc).2]

/-- Idempotence of the `re.sub` rewrite for a quote-free target value:
every attribute it writes is exactly what it would match and rewrite to
itself on a second pass. -/
lemma subAll_idem (t : Str) (hq : '"' ∉ t) : ∀ (n : Nat) (s : Str), s.length ≤ n →
    subAll 'g' gtqTail (gtq ++ t ++ ['"']) (subAll 'g' gtqTail (gtq ++ t ++ ['"']) s) =
      subAll 'g' gtqTail (gtq ++ t ++ ['"']) s := by
  intro n
  induction n with
  | zero =>
    intro s hn
    have hs : s = [] := List.length_eq_zero.mp (Nat.le_zero.mp hn)
    subst hs
    rfl
  | succ n ih =>
    intro s hn
    cases s with
    | nil => rfl
    | cons c cs =>
      simp only [List.length_cons] at hn
      by_cases hm : ('g' :: gtqTail : Str).isPrefixOf (c :: cs) ∧ '"' ∈ cs.drop gtqTail.length
      · rw [subAll_cons_match 'g' gtqTail (gtq ++ t ++ ['"']) c cs hm]
        have hshape : (gtq ++ t ++ ['"']) ++
            subAll 'g' gtqTail (gtq ++ t ++ ['"'])
              (((cs.drop gtqTail.length).dropWhile (fun x => x ≠ '"')).drop 1) =
            'g' :: (gtqTail ++ (t ++ '"' ::
              subAll 'g' gtqTail (gtq ++ t ++ ['"'])
                (((cs.drop gtqTail.length).dropWhile (fun x => x ≠ '"')).drop 1))) := by
          simp [gtq]
        rw [hshape, subAll_head_match (gtq ++ t ++ ['"']) t _ hq,
          ih _ (le_trans (afterMatch_len_le gtqTail cs) (by omega))]
        rw [← hshape]
      · rw [subAll_cons_skip 'g' gtqTail (gtq ++ t ++ ['"']) c cs hm]
        have hm2 : ¬(('g' :: gtqTail : Str).isPrefixOf
            (c :: subAll 'g' gtqTail (gtq ++ t ++ ['"']) cs) ∧
            '"' ∈ (subAll 'g' gtqTail (gtq ++ t ++ ['"']) cs).drop gtqTail.length) := by
          intro hcon
          rw [isPrefixOf_cons_cons, Bool.and_eq_true] at hcon
          obtain ⟨⟨hgc, htail⟩, hquote⟩ := hcon
          have hc : 'g' = c := eq_of_beq hgc
          have htail' : gtqTail.isPrefixOf cs = true :=
            subAll_prefix_transfer (gtqTail ++ t ++ ['"']) n cs gtqTail (by omega)
              (by decide) htail
          have hpre : ('g' :: gtqTail : Str).isPrefixOf (c :: cs) = true := by
            rw [isPrefixOf_cons_cons, htail']
            simp [← hc]
          have hqf : ¬('"' ∈ cs.drop gtqTail.length) := fun hmem => hm ⟨hpre, hmem⟩
          obtain ⟨rest, hrest⟩ := exists_of_isPrefixOf gtqTail cs htail'
          rw [hrest, subAll_peel (gtq ++ t ++ ['"']) gtqTail rest (by decide),
            List.drop_left] at hquote
          have hrq : '"' ∈ rest :=
            subAll_quote_mem (gtq ++ t ++ ['"']) n rest
              (by rw [hrest] at hn; simp [List.length_append] at hn; omega) hquote
          rw [hrest, List.drop_left] at hqf
          exact hqf hrq
        rw [subAll_cons_skip 'g' gtqTail (gtq ++ t ++ ['"']) c _ hm2, ih cs (by omega)]

/-- The `re.sub` rewrite preserves the presence of `group-title=`. -/
lemma occurs_gt12_subAll (t : Str) : ∀ (n : Nat) (s : Str), s.length ≤ n →
    occurs gt12 s = true →
    occurs gt12 (subAll 'g' gtqTail (gtq ++ t ++ ['"']) s) = true := by
  intro n
  induction n with
  | zero =>
    intro s hn hocc
    have hs : s = [] := List.length_eq_zero.mp (Nat.le_zero.mp hn)
    subst hs
    exact absurd hocc (by decide)
  | succ n ih =>
    intro s hn hocc
    cases s with
    | nil => exact absurd hocc (by decide)
    | cons c cs =>
      simp only [List.length_cons] at hn
      by_cases hm : ('g' :: gtqTail : Str).isPrefixOf (c :: cs) ∧ '"' ∈ cs.drop gtqTail.length
      · rw [subAll_cons_match 'g' gtqTail (gtq ++ t ++ ['"']) c cs hm]
        apply occurs_of_isPrefixOf
        apply List.isPrefixOf_iff_prefix.mpr
        refine ⟨'"' :: (t ++ ['"'] ++ subAll 'g' gtqTail (gtq ++ t ++ ['"'])
          (((cs.drop gtqTail.length).dropWhile (fun x => x ≠ '"')).drop 1)), ?_⟩
        have hgq : gtq = gt12 ++ ['"'] := by decide
        rw [hgq]
        simp
      · rw [subAll_cons_skip 'g' gtqTail (gtq ++ t ++ ['"']) c cs hm]
        rcases (Bool.or_eq_true _ _).mp ((occurs_cons gt12 c cs) ▸ hocc) with h1 | h1
        · have hg12 : gt12 = 'g' :: "roup-title=".data := by decide
          rw [hg12] at h1
          obtain ⟨r, hr⟩ := exists_of_isPrefixOf _ _ h1
          rw [List.cons_append] at hr
          injection hr with hc hcs
          rw [hcs, subAll_peel (gtq ++ t ++ ['"']) ("roup-title=".data) r (by decide)]
          apply occurs_of_isPrefixOf
          rw [hc, hg12, isPrefixOf_cons_cons, isPrefixOf_append_self]
          rfl
        · rw [occurs_cons]
          rw [ih cs (by omega) h1]
          simp

/-- When the token `#EXTINF:-1 ` does not occur, `str.replace` is the
identity. -/
lemma replaceAll_id (rep : Str) : ∀ (s : Str), occurs extinfTok s = false →
    replaceAll '#' tokTail rep s = s
  | [], _ => rfl
  | c :: cs, hocc => by
    obtain ⟨hpre, hrest⟩ := occurs_false_cons extinfTok c cs hocc
    rw [replaceAll_cons_skip '#' tokTail rep c cs (by
        intro hcon
        rw [show ('#' :: tokTail : Str) = extinfTok from rfl, hpre] at hcon
        exact absurd hcon (by simp)),
      replaceAll_id rep cs hrest]

/-- Inserting the fresh attribute makes `group-title=` occur. -/
lemma occurs_gt12_replaceAll (t : Str) : ∀ (n : Nat) (s : Str), s.length ≤ n →
    occurs extinfTok s = true →
    occurs gt12 (replaceAll '#' tokTail (extinfTok ++ gtq ++ t ++ ('"' :: [' '])) s) = true := by
  intro n
  induction n with
  | zero =>
    intro s hn hocc
    have hs : s = [] := List.length_eq_zero.mp (Nat.le_zero.mp hn)
    subst hs
    exact absurd hocc (by decide)
  | succ n ih =>
    intro s hn hocc
    cases s with
    | nil => exact absurd hocc (by decide)
    | cons c cs =>
      simp only [List.length_cons] at hn
      by_cases hm : ('#' :: tokTail : Str).isPrefixOf (c :: cs)
      · rw [replaceAll_cons_match '#' tokTail _ c cs hm]
        have hshape : (extinfTok ++ gtq ++ t ++ ('"' :: [' '])) ++
            replaceAll '#' tokTail (extinfTok ++ gtq ++ t ++ ('"' :: [' ']))
              (cs.drop tokTail.length) =
            extinfTok ++ (gtq ++ (t ++ (('"' :: [' ']) ++
              replaceAll '#' tokTail (extinfTok ++ gtq ++ t ++ ('"' :: [' ']))
                (cs.drop tokTail.length)))) := by
          simp [List.append_assoc]
        rw [hshape]
        apply occurs_append_right
        apply occurs_of_isPrefixOf
        apply List.isPrefixOf_iff_prefix.mpr
        refine ⟨'"' :: (t ++ (('"' :: [' ']) ++
          replaceAll '#' tokTail (extinfTok ++ gtq ++ t ++ ('"' :: [' ']))
            (cs.drop tokTail.length))), ?_⟩
        have hgq : gtq = gt12 ++ ['"'] := by decide
        rw [hgq]
        simp
      · rcases (Bool.or_eq_true _ _).mp ((occurs_cons extinfTok c cs) ▸ hocc) with h1 | h1
        · exact absurd h1 hm
        · rw [replaceAll_cons_skip '#' tokTail _ c cs hm, occurs_cons,
            ih cs (by omega) h1]
          simp

/-- A second `re.sub` pass after the fresh-attribute insertion changes
nothing: outside the inserted blocks the text is `group-title=`-free,
and each inserted block rewrites to itself. -/
lemma subAll_after_replaceAll (t : Str) (hq : '"' ∉ t) : ∀ (n : Nat) (s : Str),
    s.length ≤ n → occurs gt12 s = false →
    subAll 'g' gtqTail (gtq ++ t ++ ['"'])
        (replaceAll '#' tokTail (extinfTok ++ gtq ++ t ++ ('"' :: [' '])) s) =
      replaceAll '#' tokTail (extinfTok ++ gtq ++ t ++ ('"' :: [' '])) s := by
  intro n
  induction n with
  | zero =>
    intro s hn _
    have hs : s = [] := List.length_eq_zero.mp (Nat.le_zero.mp hn)
    subst hs
    rfl
  | succ n ih =>
    intro s hn hocc
    cases s with
    | nil => rfl
    | cons c cs =>
      simp only [List.length_cons] at hn
      by_cases hm : ('#' :: tokTail : Str).isPrefixOf (c :: cs)
      · rw [replaceAll_cons_match '#' tokTail _ c cs hm]
        have hshape : (extinfTok ++ gtq ++ t ++ ('"' :: [' '])) ++
            replaceAll '#' tokTail (extinfTok ++ gtq ++ t ++ ('"' :: [' ']))
              (cs.drop tokTail.length) =
            extinfTok ++ ('g' :: (gtqTail ++ (t ++ '"' :: (' ' ::
              replaceAll '#' tokTail (extinfTok ++ gtq ++ t ++ ('"' :: [' ']))
                (cs.drop tokTail.length))))) := by
          simp [gtq, List.append_assoc]
        rw [hshape, subAll_peel (gtq ++ t ++ ['"']) extinfTok _ (by decide),
          subAll_head_match (gtq ++ t ++ ['"']) t _ hq,
          subAll_cons_skip 'g' gtqTail (gtq ++ t ++ ['"']) ' ' _ (by
            intro hcon
            rw [isPrefixOf_cons_neg 'g' ' ' gtqTail _ (by decide)] at hcon
            exact absurd hcon.1 (by simp)),
          ih (cs.drop tokTail.length) (by
            have : (cs.drop tokTail.length).length ≤ cs.length := by
              simp [List.length_drop]
            omega)
            (occurs_false_drop gt12 cs tokTail.length
              (occurs_false_cons gt12 c cs hocc).2)]
        simp [gtq, List.append_assoc]
      · rw [replaceAll_cons_skip '#' tokTail _ c cs hm]
        have hm2 : ¬(('g' :: gtqTail : Str).isPrefixOf
            (c :: replaceAll '#' tokTail (extinfTok ++ gtq ++ t ++ ('"' :: [' '])) cs) ∧
            '"' ∈ (replaceAll '#' tokTail (extinfTok ++ gtq ++ t ++ ('"' :: [' '])) cs).drop
              gtqTail.length) := by
          intro hcon
          rw [isPrefixOf_cons_cons, Bool.and_eq_true] at hcon
          obtain ⟨⟨hgc, htail⟩, _⟩ := hcon
          have hc : 'g' = c := eq_of_beq hgc
          have htail' : gtqTail.isPrefixOf cs = true :=
            replaceAll_prefix_transfer _ n cs gtqTail (by omega) (by decide) htail
          have h12 : gt12.isPrefixOf (c :: cs) = true := by
            have hsplit : gtqTail = "roup-title=".data ++ ['"'] := by decide
            have ht12 : ("roup-title=".data).isPrefixOf cs = true :=
              isPrefixOf_of_append_isPrefixOf _ ['"'] cs (by rw [← hsplit]; exact htail')
            have hg12 : gt12 = 'g' :: "roup-title=".data := by decide
            rw [hg12, isPrefixOf_cons_cons, ht12]
            simp [← hc]
          rw [occurs_of_isPrefixOf gt12 (c :: cs) h12] at hocc
          exact absurd hocc (by simp)
        rw [subAll_cons_skip 'g' gtqTail (gtq ++ t ++ ['"']) c _ hm2,
          ih cs (by omega) (occurs_false_cons gt12 c cs hocc).2]

lemma upd_extinf_idem (t : Str) (hq : '"' ∉ t) (e : Str) :
    upd_extinf t (upd_extinf t e) = upd_extinf t e := by
  unfold upd_extinf
  by_cases h1 : occurs gt12 e = true
  · rw [if_pos h1, if_pos (occurs_gt12_subAll t e.length e le_rfl h1)]
    exact subAll_idem t hq e.length e le_rfl
  · have h1f : occurs gt12 e = false := by
      cases hox : occurs gt12 e with
      | false => rfl
      | true => exact absurd hox h1
    rw [if_neg h1]
    by_cases h3 : occurs extinfTok e = true
    · rw [if_pos (occurs_gt12_replaceAll t e.length e le_rfl h3)]
      exact subAll_after_replaceAll t hq e.length e le_rfl h1f
    · have h3f : occurs extinfTok e = false := by
        cases hox : occurs extinfTok e with
        | false => rfl
        | true => exact absurd hox h3
      rw [replaceAll_id _ e h3f, if_neg h1, replaceAll_id _ e h3f]

/-- C7 (amended): for every channel record and every target group
string containing neither a double quote nor a backslash, applying the
relabel operation twice with the same target yields the same record —
in particular the same metadata line and the same `group_title` field —
as applying it once. -/
theorem relabel_idempotent (ch : Channel) (t : Str) (hq : '"' ∉ t) (hb : '\\' ∉ t) :
    update_group_title (update_group_title ch t) t = update_group_title ch t := by
  unfold update_group_title
  simp only [upd_extinf_idem t hq]

/-- The quote-carrying target group used to refute C7 as stated. -/
def quoteGrp : Str := "a\"b".data

/-- C7 counterexample: with the target group `a"b` (which contains a
double quote) the relabel operation is not idempotent — the second
application sees the quote written by the first as a value delimiter and
duplicates the tail, so the metadata line changes again. -/
theorem relabel_idempotent_counterexample :
    (update_group_title (update_group_title chA quoteGrp) quoteGrp).extinf ≠
      (update_group_title chA quoteGrp).extinf := by decide

/-- C7 witness: idempotence at the concrete record `chA` and the
concrete quote-free target `g3`. -/
theorem relabel_idempotent_witness :
    update_group_title (update_group_title chA grpG3) grpG3 = update_group_title chA grpG3 :=
  relabel_idempotent chA grpG3 (by decide) (by decide)

lemma extract_group_title_eq (L : Str) :
    extract_tvg_attribute L groupTitleAttr =
      match findValue 'g' gtqTail L with
      | none => ([] : Str)
      | some v => v := rfl

/-- C4 (amended): for every quote- and backslash-free target group: if
the metadata line splits as a `group-title="`-free prefix, a quoted
group-title attribute, and a remainder, then the update rewrites the
attribute's value to the target in place (recursively rewriting any
further quoted group-title attributes in the remainder, prefix and
other text unchanged) and the group-title attribute extracted from the
returned line is exactly the target; if the line contains no
`group-title=` at all and consists of the duration token `#EXTINF:-1 `
followed by a token-free remainder, the returned line is the duration
token, the fresh quoted attribute, a space, and the unchanged
remainder. -/
theorem upsert_group_attribute (ch : Channel) (t : Str) (hq : '"' ∉ t) (hb : '\\' ∉ t) :
    (∀ a v b, ch.extinf = a ++ (gtq ++ (v ++ '"' :: b)) → occurs gtq a = false →
      '"' ∉ v →
      (update_group_title ch t).extinf =
        a ++ ((gtq ++ t ++ ['"']) ++ subAll 'g' gtqTail (gtq ++ t ++ ['"']) b) ∧
      extract_tvg_attribute (update_group_title ch t).extinf groupTitleAttr = t) ∧
    (∀ r, occurs gt12 ch.extinf = false → ch.extinf = extinfTok ++ r →
      occurs extinfTok r = false →
      (update_group_title ch t).extinf = extinfTok ++ (gtq ++ (t ++ '"' :: ' ' :: r))) := by
  constructor
  · intro a v b hsplit hocc hv
    have hgg : gtq = ('g' :: gtqTail : Str) := rfl
    have hocc12 : occurs gt12 ch.extinf = true := by
      rw [hsplit]
      apply occurs_append_right
      apply occurs_of_isPrefixOf
      apply List.isPrefixOf_iff_prefix.mpr
      refine ⟨'"' :: (v ++ '"' :: b), ?_⟩
      have hgq : gtq = gt12 ++ ['"'] := by decide
      rw [hgq]
      simp
    have hupd : (update_group_title ch t).extinf =
        a ++ ((gtq ++ t ++ ['"']) ++ subAll 'g' gtqTail (gtq ++ t ++ ['"']) b) := by
      show upd_extinf t ch.extinf = _
      unfold upd_extinf
      rw [if_pos hocc12, hsplit, hgg]
      exact subAll_seam (('g' :: gtqTail) ++ t ++ ['"']) v hv a b (by rw [← hgg]; exact hocc)
    refine ⟨hupd, ?_⟩
    rw [extract_group_title_eq, hupd]
    have hshape : a ++ ((gtq ++ t ++ ['"']) ++ subAll 'g' gtqTail (gtq ++ t ++ ['"']) b) =
        a ++ (('g' :: gtqTail) ++ (t ++ '"' :: subAll 'g' gtqTail (gtq ++ t ++ ['"']) b)) := by
      simp [gtq, List.append_assoc]
    rw [hshape, findValue_seam t hq a _ (by rw [← hgg]; exact hocc)]
  · intro r hocc hsplit hnr
    show upd_extinf t ch.extinf = _
    unfold upd_extinf
    rw [if_neg (by rw [hocc]; simp), hsplit]
    have het : extinfTok = ('#' :: tokTail : Str) := rfl
    have hsh2 : extinfTok ++ r = '#' :: (tokTail ++ r) := by
      rw [het, List.cons_append]
    rw [hsh2, replaceAll_cons_match '#' tokTail _ '#' (tokTail ++ r) (by
        rw [isPrefixOf_cons_cons, isPrefixOf_append_self]
        rfl),
      List.drop_left, replaceAll_id _ r hnr]
    simp [gtq, List.append_assoc, het]

/-- The metadata line used to refute C4 as stated: its group-title
attribute is absent and it carries duration `0`, so the insertion
branch's token replace finds nothing to replace. -/
def ch4 : Channel :=
  { mkChannel ("#EXTINF:0 tvg-name=\"x\",News").data 0 with url := some "http://n".data }

/-- A record whose metadata line has no group-title attribute but does
start with the `#EXTINF:-1 ` duration token. -/
def chNoG : Channel :=
  { mkChannel ("#EXTINF:-1 tvg-name=\"x\",News").data 0 with url := some "http://n".data }

/-- C4 counterexample: on a metadata line with duration `0` and no
group-title attribute, the update returns the line unchanged — the new
attribute is *not* inserted adjacent to the duration token, refuting
the claim as stated. -/
theorem upsert_group_attribute_counterexample :
    occurs gt12 ch4.extinf = false ∧
    (update_group_title ch4 grpG3).extinf = ch4.extinf ∧
    occurs (gtq ++ grpG3 ++ ['"']) (update_group_title ch4 grpG3).extinf = false := by
  decide

/-- C4 witness: both branches of the amended claim at concrete records —
replacement of the existing quoted attribute of `chA`, and insertion
after the duration token of `chNoG`. -/
theorem upsert_group_attribute_witness :
    ((update_group_title chA grpG3).extinf = ("#EXTINF:-1 ".data) ++
        ((gtq ++ grpG3 ++ ['"']) ++ subAll 'g' gtqTail (gtq ++ grpG3 ++ ['"']) (",A".data)) ∧
      extract_tvg_attribute (update_group_title chA grpG3).extinf groupTitleAttr = grpG3) ∧
    (update_group_title chNoG grpG3).extinf =
      extinfTok ++ (gtq ++ (grpG3 ++ '"' :: ' ' :: ("tvg-name=\"x\",News").data)) :=
  ⟨(upsert_group_attribute chA grpG3 (by decide) (by decide)).1 ("#EXTINF:-1 ".data)
      ("g1".data) (",A".data) (by decide) (by decide) (by decide),
   (upsert_group_attribute chNoG grpG3 (by decide) (by decide)).2
      (("tvg-name=\"x\",News").data) (by decide) (by decide) (by decide)⟩

/-!
The change gate.  `get_content_hash` is `hashlib.md5(content.encode('utf-8')).hexdigest()`;
the MD5 algorithm (an external library on the Python side) is modelled
from RFC 1321 over `Nat` with explicit reduction mod `2^32`, and the
UTF-8 encoding of the text is made explicit.  The persisted hash file
becomes an `Option Str` (absent file / file content).
-/

/-- Two to the thirty-second power, the MD5 word modulus. -/
def w32 : Nat := 4294967296

/-- UTF-8 encoding of one character (1–4 bytes). -/
def utf8Char (c : Char) : List Nat :=
  let n := c.toNat
  if n < 128 then [n]
  else if n < 2048 then [192 + n / 64, 128 + n % 64]
  else if n < 65536 then [224 + n / 4096, 128 + (n / 64) % 64, 128 + n % 64]
  else [240 + n / 262144, 128 + (n / 4096) % 64, 128 + (n / 64) % 64, 128 + n % 64]

/-- UTF-8 encoding of a text, as Python's `str.encode('utf-8')`. -/
def utf8Encode (s : Str) : List Nat := (s.map utf8Char).flatten

def md5K : List Nat :=
  [3614090360, 3905402710, 606105819, 3250441966, 4118548399, 1200080426,
   2821735955, 4249261313, 1770035416, 2336552879, 4294925233, 2304563134,
   1804603682, 4254626195, 2792965006, 1236535329, 4129170786, 3225465664,
   643717713, 3921069994, 3593408605, 38016083, 3634488961, 3889429448,
   568446438, 3275163606, 4107603335, 1163531501, 2850285829, 4243563512,
   1735328473, 2368359562, 4294588738, 2272392833, 1839030562, 4259657740,
   2763975236, 1272893353, 4139469664, 3200236656, 681279174, 3936430074,
   3572445317, 76029189, 3654602809, 3873151461, 530742520, 3299628645,
   4096336452, 1126891415, 2878612391, 4237533241, 1700485571, 2399980690,
   4293915773, 2240044497, 1873313359, 4264355552, 2734768916, 1309151649,
   4149444226, 3174756917, 718787259, 3951481745]

def md5S : List Nat :=
  [7, 12, 17, 22, 7, 12, 17, 22, 7, 12, 17, 22, 7, 12, 17, 22,
   5, 9, 14, 20, 5, 9, 14, 20, 5, 9, 14, 20, 5, 9, 14, 20,
   4, 11, 16, 23, 4, 11, 16, 23, 4, 11, 16, 23, 4, 11, 16, 23,
   6, 10, 15, 21, 6, 10, 15, 21, 6, 10, 15, 21, 6, 10, 15, 21]

/-- The four MD5 round functions, selected by round index. -/
def md5F (i b c d : Nat) : Nat :=
  if i < 16 then (b &&& c) ||| ((b ^^^ 4294967295) &&& d)
  else if i < 32 then (d &&& b) ||| ((d ^^^ 4294967295) &&& c)
  else if i < 48 then b ^^^ c ^^^ d
  else c ^^^ (b ||| (d ^^^ 4294967295))

/-- The message-word schedule of MD5. -/
def md5G (i : Nat) : Nat :=
  if i < 16 then i
  else if i < 32 then (5 * i + 1) % 16
  else if i < 48 then (3 * i + 5) % 16
  else (7 * i) % 16

/-- Left rotation of a 32-bit word. -/
def rotl (x s : Nat) : Nat := ((x * 2 ^ s) % w32 + x / 2 ^ (32 - s)) % w32

/-- One of the 64 MD5 operations on the register quadruple. -/
def md5Round (M : List Nat) (st : Nat × Nat × Nat × Nat) (i : Nat) :
    Nat × Nat × Nat × Nat :=
  let tmp := (st.1 + md5F i st.2.1 st.2.2.1 st.2.2.2 + md5K.getD i 0 +
    M.getD (md5G i) 0) % w32
  (st.2.2.2, (st.2.1 + rotl tmp (md5S.getD i 0)) % w32, st.2.1, st.2.2.1)

/-- Process one 16-word block. -/
def md5Block (st : Nat × Nat × Nat × Nat) (M : List Nat) : Nat × Nat × Nat × Nat :=
  let st2 := (List.range 64).foldl (md5Round M) st
  ((st.1 + st2.1) % w32, (st.2.1 + st2.2.1) % w32,
   (st.2.2.1 + st2.2.2.1) % w32, (st.2.2.2 + st2.2.2.2) % w32)

/-- Little-endian byte decomposition of a number into `k` bytes. -/
def leBytes : Nat → Nat → List Nat
  | 0, _ => []
  | k + 1, n => (n % 256) :: leBytes k (n / 256)

/-- MD5 padding: a 1-bit, zeros up to 56 mod 64, then the 64-bit
little-endian bit length. -/
def padMsg (msg : List Nat) : List Nat :=
  msg ++ [128] ++ List.replicate ((119 - msg.length % 64) % 64) 0 ++
    leBytes 8 ((msg.length * 8) % 18446744073709551616)

/-- Split a byte list into 64-byte chunks (fuel-driven). -/
def chunksF : Nat → List Nat → List (List Nat)
  | _, [] => []
  | 0, _ => []
  | fuel + 1, l => l.take 64 :: chunksF fuel (l.drop 64)

def chunks64 (l : List Nat) : List (List Nat) := chunksF l.length l

/-- Group bytes into 32-bit little-endian words (fuel-driven). -/
def leWordsF : Nat → List Nat → List Nat
  | _, [] => []
  | 0, _ => []
  | fuel + 1, l =>
    (l.getD 0 0 + 256 * l.getD 1 0 + 65536 * l.getD 2 0 + 16777216 * l.getD 3 0) ::
      leWordsF fuel (l.drop 4)

def leWords (l : List Nat) : List Nat := leWordsF l.length l

def md5Init : Nat × Nat × Nat × Nat := (1732584193, 4023233417, 2562383102, 271733878)

/-- The MD5 register quadruple of a byte message. -/
def md5Digest (msg : List Nat) : Nat × Nat × Nat × Nat :=
  ((chunks64 (padMsg msg)).map leWords).foldl md5Block md5Init

/-- The 128-bit digest as a single number (little-endian word order, as
in the hex digest). -/
def md5Nat (msg : List Nat) : Nat :=
  (md5Digest msg).1 + w32 * (md5Digest msg).2.1 + w32 ^ 2 * (md5Digest msg).2.2.1 +
    w32 ^ 3 * (md5Digest msg).2.2.2

def hexDigit (n : Nat) : Char := ("0123456789abcdef").data.getD n '0'

def byteHex (b : Nat) : List Char := [hexDigit (b / 16), hexDigit (b % 16)]

/-- The lowercase hex digest, as `hashlib.md5(...).hexdigest()`. -/
def md5hex (msg : List Nat) : Str := ((leBytes 16 (md5Nat msg)).map byteHex).flatten

/-- Model of `M3UProcessor.get_content_hash`. -/
def get_content_hash (content : Str) : Str := md5hex (utf8Encode content)

/-- Model of `M3UProcessor.save_current_hash`: overwrite the hash file
with the current digest. -/
def save_current_hash (content : Str) (_hashFile : Option Str) : Option Str :=
  some (get_content_hash content)

/-- Model of `M3UProcessor.get_previous_hash`: the stripped hash-file
content, or `none` when the file does not exist. -/
def get_previous_hash (hashFile : Option Str) : Option Str := hashFile.map trim

/-- Model of `M3UProcessor.has_source_changed`: true on first run or
when the digest differs from the stored one. -/
def has_source_changed (content : Str) (hashFile : Option Str) : Bool :=
  match get_previous_hash hashFile with
  | none => true
  | some prev => !(get_content_hash content == prev)

lemma md5Block_bound (st : Nat × Nat × Nat × Nat) (M : List Nat) :
    (md5Block st M).1 < w32 ∧ (md5Block st M).2.1 < w32 ∧
    (md5Block st M).2.2.1 < w32 ∧ (md5Block st M).2.2.2 < w32 := by
  have hw : 0 < w32 := by norm_num [w32]
  exact ⟨Nat.mod_lt _ hw, Nat.mod_lt _ hw, Nat.mod_lt _ hw, Nat.mod_lt _ hw⟩

lemma foldl_md5Block_bound : ∀ (blocks : List (List Nat)) (st : Nat × Nat × Nat × Nat),
    st.1 < w32 → st.2.1 < w32 → st.2.2.1 < w32 → st.2.2.2 < w32 →
    (blocks.foldl md5Block st).1 < w32 ∧ (blocks.foldl md5Block st).2.1 < w32 ∧
    (blocks.foldl md5Block st).2.2.1 < w32 ∧ (blocks.foldl md5Block st).2.2.2 < w32
  | [], st, h1, h2, h3, h4 => ⟨h1, h2, h3, h4⟩
  | M :: blocks, st, _, _, _, _ => by
    simp only [List.foldl_cons]
    obtain ⟨g1, g2, g3, g4⟩ := md5Block_bound st M
    exact foldl_md5Block_bound blocks (md5Block st M) g1 g2 g3 g4

lemma md5Nat_bound (msg : List Nat) : md5Nat msg < w32 ^ 4 := by
  obtain ⟨h1, h2, h3, h4⟩ := foldl_md5Block_bound ((chunks64 (padMsg msg)).map leWords)
    md5Init (by norm_num [md5Init, w32]) (by norm_num [md5Init, w32])
    (by norm_num [md5Init, w32]) (by norm_num [md5Init, w32])
  have hd : md5Digest msg = ((chunks64 (padMsg msg)).map leWords).foldl md5Block md5Init := rfl
  unfold md5Nat
  rw [hd]
  norm_num [w32] at h1 h2 h3 h4 ⊢
  omega

/-- By pigeonhole, the 128-bit digest cannot separate all texts: some
two distinct texts share their MD5 digest. -/
lemma md5_exists_collision :
    ∃ X Y : Str, X ≠ Y ∧ md5Nat (utf8Encode X) = md5Nat (utf8Encode Y) := by
  have hinf : Infinite Str :=
    Infinite.of_injective (fun n => List.replicate n 'a')
      (fun m n h => by simpa using congrArg List.length h)
  obtain ⟨x, y, hxy, hf⟩ := Finite.exists_ne_map_eq_of_infinite
    (fun s : Str => (⟨md5Nat (utf8Encode s), md5Nat_bound _⟩ : Fin (w32 ^ 4)))
  exact ⟨x, y, hxy, congrArg Fin.val hf⟩

lemma hexDigit_not_ws (n : Nat) : (hexDigit n).isWhitespace = false := by
  unfold hexDigit
  by_cases h : n < 16
  · interval_cases n <;> rfl
  · rw [List.getD_eq_default]
    · rfl
    · simpa using h

lemma trim_eq_self_of_no_ws (s : Str) (h : ∀ c ∈ s, c.isWhitespace = false) :
    trim s = s := by
  have h1 : s.dropWhile Char.isWhitespace = s := by
    cases s with
    | nil => rfl
    | cons a t =>
      rw [List.dropWhile_cons, if_neg (by simp [h a (List.mem_cons_self _ _)])]
  have h2 : s.reverse.dropWhile Char.isWhitespace = s.reverse := by
    cases hs : s.reverse with
    | nil => rfl
    | cons a t =>
      rw [List.dropWhile_cons, if_neg (by
        have ha : a ∈ s := by
          rw [← List.mem_reverse, hs]
          exact List.mem_cons_self _ _
        simp [h a ha])]
  show ((s.dropWhile Char.isWhitespace).reverse.dropWhile Char.isWhitespace).reverse = s
  rw [h1, h2, List.reverse_reverse]

lemma md5hex_no_ws (msg : List Nat) : ∀ c ∈ md5hex msg, c.isWhitespace = false := by
  intro c hc
  unfold md5hex at hc
  obtain ⟨l, hl, hcl⟩ := List.mem_flatten.mp hc
  obtain ⟨b, _, hb⟩ := List.mem_map.mp hl
  rw [← hb] at hcl
  rcases List.mem_cons.mp hcl with h1 | h1
  · rw [h1]; exact hexDigit_not_ws _
  · rcases List.mem_cons.mp h1 with h2 | h2
    · rw [h2]; exact hexDigit_not_ws _
    · simp at h2

lemma trim_hash (content : Str) : trim (get_content_hash content) = get_content_hash content :=
  trim_eq_self_of_no_ws _ (md5hex_no_ws _)

lemma has_source_changed_some (content prev : Str) :
    has_source_changed content (some prev) = !(get_content_hash content == trim prev) := rfl

lemma save_current_hash_eq (content : Str) (hashFile : Option Str) :
    save_current_hash content hashFile = some (get_content_hash content) := rfl

/-- C5 counterexample: it is not the case that after committing X the
gate reports a change for every Y ≠ X.  The digest space is finite
(128 bits) while the text space is infinite, so by pigeonhole two
distinct texts collide, and for such a pair the gate stays silent. -/
theorem change_gate_counterexample :
    ¬(∀ X Y : Str, X ≠ Y → has_source_changed Y (save_current_hash X none) = true) := by
  intro hall
  obtain ⟨X, Y, hne, heq⟩ := md5_exists_collision
  have hhash : get_content_hash Y = get_content_hash X := by
    unfold get_content_hash md5hex
    rw [heq]
  have h1 := hall X Y hne
  rw [save_current_hash_eq, has_source_changed_some, trim_hash, hhash] at h1
  simp at h1

/-- C5 (amended): the gate reports a change on first run (no stored
digest); after committing X it reports no change for X itself; and it
reports a change for every Y whose digest differs from X's (which, by
the counterexample, is weaker than Y ≠ X). -/
theorem change_gate (X Y : Str) (hashFile : Option Str)
    (hdiff : get_content_hash Y ≠ get_content_hash X) :
    has_source_changed X none = true ∧
    has_source_changed X (save_current_hash X hashFile) = false ∧
    has_source_changed Y (save_current_hash X hashFile) = true := by
  refine ⟨rfl, ?_, ?_⟩
  · rw [save_current_hash_eq, has_source_changed_some, trim_hash]
    simp
  · rw [save_current_hash_eq, has_source_changed_some, trim_hash]
    simp [hdiff]

set_option maxRecDepth 40000 in
/-- C5 witness: the amended gate behaviour at the concrete texts `a`
and `b`, whose digests differ. -/
theorem change_gate_witness :
    has_source_changed ("a".data) none = true ∧
    has_source_changed ("a".data) (save_current_hash ("a".data) none) = false ∧
    has_source_changed ("b".data) (save_current_hash ("a".data) none) = true :=
  change_gate ("a".data) ("b".data) none (by decide)
